import Mathlib

/-!
Shallow embedding of the php-modfather analyzer core:
symbol resolution (ImportContext, resolve_class_name), the declaration
visitor (ClassDependencyAnalyzer), the generic DependencyGraph container,
and the namespace-level ModuleRecommender (cycle detection, module
suggestion).  Rust strings are Lean Strings, HashMap and HashSet state is
modelled observationally (insert-overwrite as shadowing cons with
first-match lookup; set insertion as membership-checked append with the
same equality the Rust Eq instance compares), and f64 cohesion scores are
modelled as exact rationals.
-/

/-- Rust pattern `name.split(sep)` on characters: splitting an empty string
yields one empty piece, a leading separator yields a leading empty piece. -/
def splitOnChar (c : Char) : List Char → List (List Char)
  | [] => [[]]
  | x :: xs =>
    match splitOnChar c xs with
    | h :: t => if x = c then [] :: h :: t else (x :: h) :: t
    | [] => if x = c then [[], []] else [[x]]

/-- Last piece of `fq.split('\\')`, defaulting to the whole string
(mirrors `split('\\').last().unwrap_or(&fully_qualified)`). -/
def lastBackslashSegment (fq : String) : String :=
  String.mk (((splitOnChar '\\' fq.data).getLastD fq.data))

/-- First piece of `ns.split('\\')`, defaulting to the whole string
(mirrors `split('\\').next().unwrap_or(namespace)`). -/
def firstBackslashSegment (ns : String) : String :=
  String.mk (((splitOnChar '\\' ns.data).headD ns.data))

/-- Rust `name.starts_with('\\')`. -/
def startsWithBackslash (s : String) : Bool :=
  s.data.head? = some '\\'

/-- Rust `name[1..]` on a string whose first character is the one-byte
`'\\'`: drop the first character. -/
def dropFirstChar (s : String) : String :=
  String.mk s.data.tail

/-- Source `ImportContext`: map of short name to fully qualified name.  The Rust
`HashMap` insert-overwrite is modelled by shadowing: newer bindings are
consed in front and `resolve` takes the first match. -/
structure ImportContext where
  imports : List (String × String)
deriving Repr, DecidableEq

def ImportContext.new : ImportContext := ⟨[]⟩

/-- Source `ImportContext::add_import`: the short name is the alias when present,
otherwise the last backslash-separated segment of the fully qualified name. -/
def ImportContext.add_import (ctx : ImportContext) (fully_qualified : String)
    (aliasName : Option String) : ImportContext :=
  let short_name :=
    match aliasName with
    | some a => a
    | none => lastBackslashSegment fully_qualified
  ⟨(short_name, fully_qualified) :: ctx.imports⟩

/-- Source `ImportContext::resolve`: `HashMap::get` on the short name. -/
def ImportContext.resolve (ctx : ImportContext) (name : String) : Option String :=
  (ctx.imports.find? (fun p => p.1 = name)).map (fun p => p.2)

/-- Source `ClassDependencyAnalyzer::resolve_class_name`. -/
def resolve_class_name (name : String) (ns : Option String)
    (imports : ImportContext) : String :=
  if startsWithBackslash name then
    dropFirstChar name
  else
    match imports.resolve name with
    | some fqn => fqn
    | none =>
      match ns with
      | some n => n ++ "\\" ++ name
      | none => name

/-- Source `ClassDependencyAnalyzer::get_fqn` (declaration-name qualification). -/
def get_fqn (name : String) (ns : Option String) : String :=
  if startsWithBackslash name then
    name
  else
    match ns with
    | some n => n ++ "\\" ++ name
    | none => name

/-- Rust `str::to_lowercase`, character by character (the names compared
against are all ASCII). -/
def str_to_lowercase (s : String) : String :=
  String.mk (s.data.map Char.toLower)

/-- Source `ClassDependencyAnalyzer::is_class_type`: true unless the lowercased
name is one of the built-in type names. -/
def is_class_type (type_name : String) : Bool :=
  !([ "int", "float", "string", "bool", "array", "object",
      "callable", "iterable", "void", "mixed", "never",
      "true", "false", "null", "self", "parent", "static"
    ].contains (str_to_lowercase type_name))


/-! ### AST (the mago-syntax node shapes the visitor consumes) -/

/-- Source `Identifier`: local, qualified, or fully qualified name; each carries
its raw string value. -/
inductive Identifier where
  | lcl (value : String)
  | qualified (value : String)
  | fullyQualified (value : String)
deriving Repr, DecidableEq

/-- Source `Identifier::value` (the raw text of any identifier variant). -/
def Identifier.value : Identifier → String
  | .lcl v => v
  | .qualified v => v
  | .fullyQualified v => v

/-- Type `Hint` with the composition shapes the visitor decomposes;
`other` covers the hint variants of the catch-all arm. -/
inductive Hint where
  | identifier (id : Identifier)
  | parenthesized (hint : Hint)
  | nullable (hint : Hint)
  | union (left : Hint) (right : Hint)
  | intersection (left : Hint) (right : Hint)
  | other
deriving Repr, DecidableEq

/-- Property member: plain or hooked, each with an optional type hint. -/
inductive Property where
  | plain (hint : Option Hint)
  | hooked (hint : Option Hint)
deriving Repr, DecidableEq

/-- Source `ClassLikeMember`: trait use, property, method (return type hint and
per-parameter optional hints), or any other member shape. -/
inductive ClassLikeMember where
  | traitUse (trait_names : List Identifier)
  | property (p : Property)
  | method (return_type_hint : Option Hint) (parameter_hints : List (Option Hint))
  | other
deriving Repr, DecidableEq

/-- Source `Class` declaration: name, optional extends list, optional implements
list, members. -/
structure ClassDecl where
  name : String
  extendsTypes : Option (List Identifier)
  implementsTypes : Option (List Identifier)
  members : List ClassLikeMember
deriving Repr, DecidableEq

/-- Source `Interface` declaration: name and optional extends list. -/
structure InterfaceDecl where
  name : String
  extendsTypes : Option (List Identifier)
deriving Repr, DecidableEq

/-- Source `Trait` declaration: name and members. -/
structure TraitDecl where
  name : String
  members : List ClassLikeMember
deriving Repr, DecidableEq

/-- Source `Enum` declaration: name, optional backing type hint, optional
implements list. -/
structure EnumDecl where
  name : String
  backing_type_hint : Option Hint
  implementsTypes : Option (List Identifier)
deriving Repr, DecidableEq

/-- One item of a `use` sequence: imported name plus optional alias text. -/
structure UseItem where
  name : Identifier
  aliasName : Option String
deriving Repr, DecidableEq

/-- Source `UseItems`: a sequence of items, or any other use-statement form
(handled by the catch-all arm). -/
inductive UseItems where
  | sequence (items : List UseItem)
  | otherForm
deriving Repr, DecidableEq

/-- Source `Statement`: the top-level statement shapes the visitor matches on;
`other` covers every statement shape of the catch-all arm. -/
inductive Statement where
  | use (items : UseItems)
  | nsBlock (name : Option Identifier) (statements : List Statement)
  | classDecl (c : ClassDecl)
  | interfaceDecl (i : InterfaceDecl)
  | traitDecl (t : TraitDecl)
  | enumDecl (e : EnumDecl)
  | other

/-- Source `Program`: sequence of top-level statements. -/
structure Program where
  statements : List Statement

/-! ### ClassDependencyAnalyzer state and visitor -/

/-- Insert-or-update by key keeping position (the insert semantics shared
by the IndexMap and HashMap uses below, restricted to the observable
key-to-value mapping and key order). -/
def keyUpsert {β : Type} (l : List (String × β)) (k : String) (v : β) :
    List (String × β) :=
  if l.any (fun p => p.1 = k) then
    l.map (fun p => if p.1 = k then (k, v) else p)
  else
    l ++ [(k, v)]

def upsert (l : List (String × String)) (k v : String) : List (String × String) :=
  keyUpsert l k v

/-- Analyzer accumulator: `classes` maps a declared fully qualified name
to its file path (IndexMap); `dependencies` is the set of accumulated
(from, to) pairs (IndexMap of name to HashSet, flattened to the pair set
it observably is). -/
structure ClassDependencyAnalyzer where
  classes : List (String × String)
  dependencies : List (String × String)
deriving Repr, DecidableEq

def ClassDependencyAnalyzer.new : ClassDependencyAnalyzer := ⟨[], []⟩

/-- Source `ClassDependencyAnalyzer::add_dependency`: set insertion of the pair. -/
def add_dependency (a : ClassDependencyAnalyzer) (frm tgt : String) :
    ClassDependencyAnalyzer :=
  if (frm, tgt) ∈ a.dependencies then a
  else { a with dependencies := a.dependencies ++ [(frm, tgt)] }

/-- Source `ClassDependencyAnalyzer::extract_namespace_name`: qualified and local
names give their value, anything else (a fully qualified name, or no name)
gives the empty string. -/
def extract_namespace_name (name : Option Identifier) : String :=
  match name with
  | some (.qualified v) => v
  | some (.lcl v) => v
  | _ => ""

/-- Source `ClassDependencyAnalyzer::extract_identifier_from_name`. -/
def extract_identifier_from_name (name : Identifier) : String :=
  name.value

/-- Source `ClassDependencyAnalyzer::process_use_statement`: only the sequence
form is handled; each item is imported under its optional alias. -/
def process_use_statement (items : UseItems) (imports : ImportContext) :
    ImportContext :=
  match items with
  | .sequence seq =>
    seq.foldl (fun imp item => imp.add_import item.name.value item.aliasName) imports
  | .otherForm => imports

/-- Source `ClassDependencyAnalyzer::extract_hint_dependencies`: recursively
decompose the hint, and for each identifier leaf passing the built-in
filter add one dependency on its resolved name. -/
def extract_hint_dependencies (a : ClassDependencyAnalyzer) (hint : Hint)
    (current_class : String) (ns : Option String) (imports : ImportContext) :
    ClassDependencyAnalyzer :=
  match hint with
  | .identifier id =>
    let type_name := id.value
    if is_class_type type_name then
      add_dependency a current_class (resolve_class_name type_name ns imports)
    else a
  | .parenthesized p => extract_hint_dependencies a p current_class ns imports
  | .nullable n => extract_hint_dependencies a n current_class ns imports
  | .union l r =>
    let a := extract_hint_dependencies a l current_class ns imports
    extract_hint_dependencies a r current_class ns imports
  | .intersection l r =>
    let a := extract_hint_dependencies a l current_class ns imports
    extract_hint_dependencies a r current_class ns imports
  | .other => a

/-- Source `ClassDependencyAnalyzer::visit_class_member`. -/
def visit_class_member (a : ClassDependencyAnalyzer) (member : ClassLikeMember)
    (current_class : String) (ns : Option String) (imports : ImportContext) :
    ClassDependencyAnalyzer :=
  match member with
  | .traitUse trait_names =>
    trait_names.foldl (fun a tn =>
      add_dependency a current_class
        (resolve_class_name (extract_identifier_from_name tn) ns imports)) a
  | .property (.plain hint) =>
    match hint with
    | some h => extract_hint_dependencies a h current_class ns imports
    | none => a
  | .property (.hooked hint) =>
    match hint with
    | some h => extract_hint_dependencies a h current_class ns imports
    | none => a
  | .method return_type_hint parameter_hints =>
    let a :=
      match return_type_hint with
      | some h => extract_hint_dependencies a h current_class ns imports
      | none => a
    parameter_hints.foldl (fun a ph =>
      match ph with
      | some h => extract_hint_dependencies a h current_class ns imports
      | none => a) a
  | .other => a

/-- Source `ClassDependencyAnalyzer::process_class`. -/
def process_class (a : ClassDependencyAnalyzer) (c : ClassDecl)
    (file_path : String) (ns : Option String) (imports : ImportContext) :
    ClassDependencyAnalyzer :=
  let fqn := get_fqn c.name ns
  let a := { a with classes := upsert a.classes fqn file_path }
  let a :=
    match c.extendsTypes with
    | some tys => tys.foldl (fun a parent =>
        add_dependency a fqn
          (resolve_class_name (extract_identifier_from_name parent) ns imports)) a
    | none => a
  let a :=
    match c.implementsTypes with
    | some tys => tys.foldl (fun a itf =>
        add_dependency a fqn
          (resolve_class_name (extract_identifier_from_name itf) ns imports)) a
    | none => a
  c.members.foldl (fun a m => visit_class_member a m fqn ns imports) a

/-- Source `ClassDependencyAnalyzer::process_interface`. -/
def process_interface (a : ClassDependencyAnalyzer) (i : InterfaceDecl)
    (file_path : String) (ns : Option String) (imports : ImportContext) :
    ClassDependencyAnalyzer :=
  let fqn := get_fqn i.name ns
  let a := { a with classes := upsert a.classes fqn file_path }
  match i.extendsTypes with
  | some tys => tys.foldl (fun a parent =>
      add_dependency a fqn
        (resolve_class_name (extract_identifier_from_name parent) ns imports)) a
  | none => a

/-- Source `ClassDependencyAnalyzer::process_trait`. -/
def process_trait (a : ClassDependencyAnalyzer) (t : TraitDecl)
    (file_path : String) (ns : Option String) (imports : ImportContext) :
    ClassDependencyAnalyzer :=
  let fqn := get_fqn t.name ns
  let a := { a with classes := upsert a.classes fqn file_path }
  t.members.foldl (fun a m => visit_class_member a m fqn ns imports) a

/-- Source `ClassDependencyAnalyzer::process_enum`. -/
def process_enum (a : ClassDependencyAnalyzer) (e : EnumDecl)
    (file_path : String) (ns : Option String) (imports : ImportContext) :
    ClassDependencyAnalyzer :=
  let fqn := get_fqn e.name ns
  let a := { a with classes := upsert a.classes fqn file_path }
  let a :=
    match e.backing_type_hint with
    | some backing => extract_hint_dependencies a backing fqn ns imports
    | none => a
  match e.implementsTypes with
  | some tys => tys.foldl (fun a itf =>
      add_dependency a fqn
        (resolve_class_name (extract_identifier_from_name itf) ns imports)) a
  | none => a

mutual

/-- Source `ClassDependencyAnalyzer::visit_statement`: threads the analyzer
accumulator and the (mutably borrowed) import table; a namespace block is
visited with a fresh import table and its own name as current scope. -/
def visit_statement (a : ClassDependencyAnalyzer) (stmt : Statement)
    (file_path : String) (ns : Option String) (imports : ImportContext) :
    ClassDependencyAnalyzer × ImportContext :=
  match stmt with
  | .use items => (a, process_use_statement items imports)
  | .nsBlock name stmts =>
    let ns_name := extract_namespace_name name
    ((visit_statements a stmts file_path (some ns_name) ImportContext.new).1, imports)
  | .classDecl c => (process_class a c file_path ns imports, imports)
  | .interfaceDecl i => (process_interface a i file_path ns imports, imports)
  | .traitDecl t => (process_trait a t file_path ns imports, imports)
  | .enumDecl e => (process_enum a e file_path ns imports, imports)
  | .other => (a, imports)

/-- Sequential visit of a statement list (the visitor's enclosing loops). -/
def visit_statements (a : ClassDependencyAnalyzer) (stmts : List Statement)
    (file_path : String) (ns : Option String) (imports : ImportContext) :
    ClassDependencyAnalyzer × ImportContext :=
  match stmts with
  | [] => (a, imports)
  | s :: rest =>
    let r := visit_statement a s file_path ns imports
    visit_statements r.1 rest file_path ns r.2

end

/-- Source `ClassDependencyAnalyzer::visit_program`: fresh import table, then all
top-level statements in order. -/
def visit_program (a : ClassDependencyAnalyzer) (program : Program)
    (file_path : String) (ns : Option String) : ClassDependencyAnalyzer :=
  (visit_statements a program.statements file_path ns ImportContext.new).1

/-- Source `parse_php_file`: the external parser always yields a (possibly
partial) program plus an optional error; the error is only printed as a
warning and the program is returned under `Ok`. -/
def parse_php_file (program : Program) (err : Option String) :
    Except String Program :=
  let _warning := err
  Except.ok program

/-- Source `ClassDependencyAnalyzer::analyze` (the `GraphAnalyzer` impl): parse,
propagate a parse failure with `?`, then visit with no namespace. -/
def analyze (a : ClassDependencyAnalyzer) (file_path : String)
    (program : Program) (err : Option String) :
    Except String ClassDependencyAnalyzer :=
  match parse_php_file program err with
  | .ok p => .ok (visit_program a p file_path none)
  | .error e => .error e

/-! ### DependencyGraph container -/

/-- Metadata map: `HashMap<String, String>` built by `with_metadata`
inserts, modelled as the ordered list of its insertions (upsert by key). -/
def metaInsert (m : List (String × String)) (k v : String) :
    List (String × String) :=
  upsert m k v

def metaLookup (m : List (String × String)) (k : String) : Option String :=
  (m.find? (fun p => p.1 = k)).map (fun p => p.2)

/-- Graph `Node`: id, label, metadata. -/
structure Node where
  id : String
  label : String
  metadata : List (String × String)
deriving Repr, DecidableEq

def Node.new (id label : String) : Node := ⟨id, label, []⟩

def Node.with_metadata (n : Node) (k v : String) : Node :=
  { n with metadata := metaInsert n.metadata k v }

/-- Graph `Edge`: the Rust struct has fields `from`, `to` (reserved words
here, so `frm`, `tgt`), an optional label and metadata.  Its derived
`PartialEq`/`Eq` compares all four fields; only its `Hash` is restricted
to the endpoints. -/
structure Edge where
  frm : String
  tgt : String
  label : Option String
  metadata : List (String × String)
deriving Repr, DecidableEq

def Edge.new (frm tgt : String) : Edge := ⟨frm, tgt, none, []⟩

def Edge.with_label (e : Edge) (label : String) : Edge :=
  { e with label := some label }

def Edge.with_metadata (e : Edge) (k v : String) : Edge :=
  { e with metadata := metaInsert e.metadata k v }

/-- Source `DependencyGraph`: `nodes` is a `HashMap<String, Node>` keyed by id
(modelled as upsert list), `edges` a `HashSet<Edge>`.  A `HashSet` whose
`Hash` is consistent with `Eq` behaves as a set under `Eq`, which for
`Edge` is the derived full structural equality; insertion is modelled as
membership-checked append under that equality. -/
structure DependencyGraph where
  nodes : List (String × Node)
  edges : List Edge
deriving Repr, DecidableEq

def DependencyGraph.new : DependencyGraph := ⟨[], []⟩

def DependencyGraph.containsNode (g : DependencyGraph) (id : String) : Bool :=
  g.nodes.any (fun p => p.1 = id)

def DependencyGraph.getNode (g : DependencyGraph) (id : String) : Option Node :=
  (g.nodes.find? (fun p => p.1 = id)).map (fun p => p.2)

/-- Source `DependencyGraph::add_node`: `HashMap::insert` keyed by the node id. -/
def DependencyGraph.add_node (g : DependencyGraph) (node : Node) :
    DependencyGraph :=
  { g with nodes := keyUpsert g.nodes node.id node }

/-- Source `DependencyGraph::add_edge`: auto-create missing endpoint nodes with
id = label = the endpoint string, then insert into the edge set. -/
def DependencyGraph.add_edge (g : DependencyGraph) (edge : Edge) :
    DependencyGraph :=
  let g := if g.containsNode edge.frm then g
           else g.add_node (Node.new edge.frm edge.frm)
  let g := if g.containsNode edge.tgt then g
           else g.add_node (Node.new edge.tgt edge.tgt)
  if edge ∈ g.edges then g else { g with edges := g.edges ++ [edge] }

/-- One graph-mutating operation, for quantifying over operation
sequences. -/
inductive GraphOp where
  | addNode (n : Node)
  | addEdge (e : Edge)

def applyOp (g : DependencyGraph) : GraphOp → DependencyGraph
  | .addNode n => g.add_node n
  | .addEdge e => g.add_edge e

def applyOps (ops : List GraphOp) (g : DependencyGraph) : DependencyGraph :=
  ops.foldl applyOp g

/-- The node built for a declared class: id = label = class name, with
file and internal-type metadata. -/
def internalNodeOf (p : String × String) : Node :=
  ((Node.new p.1 p.1).with_metadata "file" p.2).with_metadata "type" "internal"

/-- The node built on demand for an undeclared edge target. -/
def externalNodeOf (t : String) : Node :=
  (Node.new t t).with_metadata "type" "external"

/-- One step of the class-node loop of `build_graph`. -/
def classNodeStep (g : DependencyGraph) (p : String × String) : DependencyGraph :=
  g.add_node (internalNodeOf p)

/-- One step of the dependency-edge loop of `build_graph`. -/
def depEdgeStep (a : ClassDependencyAnalyzer) (include_external : Bool)
    (g : DependencyGraph) (p : String × String) : DependencyGraph :=
  let is_external := !(a.classes.any (fun c => c.1 = p.2))
  if include_external || !is_external then
    let g := if is_external && include_external then
               g.add_node (externalNodeOf p.2)
             else g
    g.add_edge (Edge.new p.1 p.2)
  else g

/-- Source `ClassDependencyAnalyzer::build_graph` (the `GraphAnalyzer` impl). -/
def build_graph (a : ClassDependencyAnalyzer) (include_external : Bool) :
    DependencyGraph :=
  let graph := a.classes.foldl classNodeStep DependencyGraph.new
  a.dependencies.foldl (depEdgeStep a include_external) graph

/-! ### ModuleRecommender: namespace graph, SCCs, cycles, modules -/

/-- Cycle shape classification. -/
inductive CycleType where
  | SelfCycle
  | Simple
  | Complex
deriving Repr, DecidableEq

/-- Cycle severity classification. -/
inductive CycleSeverity where
  | Low
  | Medium
  | High
deriving Repr, DecidableEq

/-- A detected cycle. -/
structure CycleDetection where
  namespaces : List String
  cycle_type : CycleType
  severity : CycleSeverity
deriving Repr, DecidableEq

/-- The petgraph `DiGraph<String, ()>` the recommender builds: node
weights in index order, and a directed edge list over node indices
(a multigraph, as petgraph is). -/
structure NsGraph where
  nodes : List String
  edges : List (Nat × Nat)
deriving Repr, DecidableEq

/-- Source `node_weight`. -/
def NsGraph.node_weight (g : NsGraph) (i : Nat) : Option String :=
  g.nodes.get? i

/-- Source `neighbors`: one occurrence per outgoing edge (order irrelevant for
every use below). -/
def NsGraph.neighbors (g : NsGraph) (i : Nat) : List Nat :=
  (g.edges.filter (fun e => e.1 = i)).map (fun e => e.2)

/-- One step of reachability closure: a vertex set plus all successors. -/
def expandOnce (g : NsGraph) (s : List Nat) : List Nat :=
  s ++ s.foldr (fun i acc => g.neighbors i ++ acc) []

def iterExpand (g : NsGraph) : Nat → List Nat → List Nat
  | 0, s => s
  | n + 1, s => iterExpand g n (expandOnce g s)

/-- Vertices reachable from `i` (any path in a graph on
`g.nodes.length` vertices is covered by that many expansion steps). -/
def reachableFrom (g : NsGraph) (i : Nat) : List Nat :=
  iterExpand g g.nodes.length [i]

/-- Mutual-reachability test. -/
def sameSCC (g : NsGraph) (i j : Nat) : Bool :=
  (reachableFrom g i).contains j && (reachableFrom g j).contains i

/-- The strongly connected component of `i`, as the ascending list of
mutually reachable vertex indices. -/
def sccOf (g : NsGraph) (i : Nat) : List Nat :=
  (List.range g.nodes.length).filter (fun j => sameSCC g i j)

/-- Model of petgraph `tarjan_scc`: every strongly connected component,
each listed once (keyed by its smallest member).  The external library
guarantees one entry per component; its reverse-topological output order
is not relied upon by the code under analysis. -/
def tarjan_scc (g : NsGraph) : List (List Nat) :=
  (List.range g.nodes.length).filterMap (fun i =>
    let c := sccOf g i
    if c.head? = some i then some c else none)

/-- Source `ModuleRecommender::count_edges_in_cycle`: for each component member,
count its neighbors that stay inside the component. -/
def count_edges_in_cycle (g : NsGraph) (scc : List Nat) : Nat :=
  (scc.map (fun n => ((g.neighbors n).filter (fun j => scc.contains j)).length)).sum

/-- Character-list lexicographic order by code point (Rust `String`
ordering). -/
def charListLe : List Char → List Char → Bool
  | [], _ => true
  | _ :: _, [] => false
  | a :: as_, b :: bs =>
    if a.toNat < b.toNat then true
    else if b.toNat < a.toNat then false
    else charListLe as_ bs

/-- Stable insertion into a lexicographically sorted string list. -/
def insertSortedStr (s : String) : List String → List String
  | [] => [s]
  | x :: xs =>
    if charListLe s.data x.data then s :: x :: xs else x :: insertSortedStr s xs

/-- Rust `Vec::sort` on strings: lexicographically sorted output. -/
def sortStrings (l : List String) : List String :=
  l.foldl (fun acc s => insertSortedStr s acc) []

/-- Source `ModuleRecommender::detect_cycles`, as a walk over the component
list (the Rust loop body, verbatim per component). -/
def detectCyclesGo (g : NsGraph) : List (List Nat) → List CycleDetection
  | [] => []
  | scc :: rest =>
    (if 1 < scc.length then
      let namespaces := sortStrings (scc.filterMap (fun i => g.node_weight i))
      let cycle_type := if namespaces.length = 2 then CycleType.Simple
                        else CycleType.Complex
      let edge_count := count_edges_in_cycle g scc
      let severity := if edge_count ≤ 2 then CycleSeverity.Low
                      else if edge_count ≤ 5 then CycleSeverity.Medium
                      else CycleSeverity.High
      [⟨namespaces, cycle_type, severity⟩]
    else if scc.length = 1 then
      match scc.head? with
      | some idx =>
        if (g.neighbors idx).any (fun n => n = idx) then
          match g.node_weight idx with
          | some ns => [⟨[ns], CycleType.SelfCycle, CycleSeverity.Medium⟩]
          | none => []
        else []
      | none => []
    else []) ++ detectCyclesGo g rest

def detect_cycles (g : NsGraph) : List CycleDetection :=
  detectCyclesGo g (tarjan_scc g)

/-- Source `NamespaceMetrics`. -/
structure NamespaceMetrics where
  class_count : Nat
  incoming_edges : Nat
  outgoing_edges : Nat
  classes : List String
deriving Repr, DecidableEq

/-- Source `ModuleRecommender` state: the namespace graph, the name-to-index map
(an index into `graph.nodes`), and the per-namespace metrics in their
iteration order. -/
structure ModuleRecommender where
  graph : NsGraph
  namespace_metrics : List (String × NamespaceMetrics)
deriving Repr, DecidableEq

/-- Source `namespace_to_index` lookup: position of the name among the graph
node weights. -/
def ModuleRecommender.nsIndex (r : ModuleRecommender) (ns : String) : Option Nat :=
  r.graph.nodes.indexOf? ns

/-- Source `ModuleSuggestion`; the f64 cohesion score is modelled as an exact
rational. -/
structure ModuleSuggestion where
  name : String
  namespaces : List String
  class_count : Nat
  internal_dependencies : Nat
  external_dependencies : Nat
  cohesion_score : ℚ
deriving Repr, DecidableEq

/-- Source `ModuleRecommender::calculate_module_dependencies`: scan each member
namespace's out-neighbors and test bucket membership. -/
def calculate_module_dependencies (r : ModuleRecommender)
    (namespaces : List String) : Nat × Nat :=
  namespaces.foldl (fun acc ns =>
    match r.nsIndex ns with
    | some idx =>
      (r.graph.neighbors idx).foldl (fun acc n =>
        match r.graph.node_weight n with
        | some neighbor_ns =>
          if namespaces.contains neighbor_ns then (acc.1 + 1, acc.2)
          else (acc.1, acc.2 + 1)
        | none => acc) acc
    | none => acc) (0, 0)

/-- IndexMap-style grouping fold: append the value under its key, keys in
first-insertion order. -/
def groupInsert (l : List (String × List String)) (k v : String) :
    List (String × List String) :=
  if l.any (fun p => p.1 = k) then
    l.map (fun p => if p.1 = k then (p.1, p.2 ++ [v]) else p)
  else
    l ++ [(k, [v])]

/-- The namespace buckets of `suggest_modules`: group every non-global
namespace by its first path segment. -/
def namespaceGroups (r : ModuleRecommender) : List (String × List String) :=
  r.namespace_metrics.foldl (fun groups p =>
    if p.1 = "\\" then groups
    else groupInsert groups (firstBackslashSegment p.1) p.1) []

/-- Source `HashMap::get` into the metrics map. -/
def ModuleRecommender.metricsOf (r : ModuleRecommender) (ns : String) :
    Option NamespaceMetrics :=
  (r.namespace_metrics.find? (fun p => p.1 = ns)).map (fun p => p.2)

/-- The suggestion built for one bucket of `suggest_modules`. -/
def buildSuggestion (r : ModuleRecommender) (cycle_namespaces : List String)
    (top_level : String) (namespaces : List String) : ModuleSuggestion :=
  let has_cycles := namespaces.any (fun ns => cycle_namespaces.contains ns)
  let class_count := (namespaces.filterMap (fun ns => r.metricsOf ns)).foldl
    (fun acc m => acc + m.class_count) 0
  let deps := calculate_module_dependencies r namespaces
  let cohesion_score : ℚ :=
    if 0 < deps.1 + deps.2 then (deps.1 : ℚ) / ((deps.1 : ℚ) + (deps.2 : ℚ))
    else 1
  let module_name := if has_cycles then top_level ++ " (contains cycles)"
                     else top_level
  ⟨module_name, namespaces, class_count, deps.1, deps.2, cohesion_score⟩

/-- Stable descending insertion by cohesion score (Rust
`sort_by(partial_cmp)` on the already-built vector). -/
def insertByScore (s : ModuleSuggestion) : List ModuleSuggestion → List ModuleSuggestion
  | [] => [s]
  | x :: xs =>
    if x.cohesion_score < s.cohesion_score then s :: x :: xs
    else x :: insertByScore s xs

def sortByScoreDesc (l : List ModuleSuggestion) : List ModuleSuggestion :=
  l.foldl (fun acc s => insertByScore s acc) []

/-- Source `ModuleRecommender::suggest_modules`. -/
def suggest_modules (r : ModuleRecommender) : List ModuleSuggestion :=
  let cycles := detect_cycles r.graph
  let cycle_namespaces := cycles.foldr (fun c acc => c.namespaces ++ acc) []
  let suggestions := (namespaceGroups r).map (fun p =>
    buildSuggestion r cycle_namespaces p.1 p.2)
  sortByScoreDesc suggestions

/-- The identifier names occurring at the leaves of a type hint. -/
def hintLeafNames : Hint → List String
  | .identifier id => [id.value]
  | .parenthesized p => hintLeafNames p
  | .nullable n => hintLeafNames n
  | .union l r => hintLeafNames l ++ hintLeafNames r
  | .intersection l r => hintLeafNames l ++ hintLeafNames r
  | .other => []

/-- The container invariant: every edge endpoint is a node, and the edge
list is duplicate free. -/
def GraphWf (g : DependencyGraph) : Prop :=
  (∀ e ∈ g.edges, g.containsNode e.frm = true ∧ g.containsNode e.tgt = true) ∧
  g.edges.Nodup

/-- The specification's answer for a singleton component: a Medium
SelfCycle exactly when the vertex has a self-loop. -/
def claimed_selfcycle (g : NsGraph) (scc : List Nat) : Option CycleDetection :=
  match scc with
  | [i] =>
    if g.edges.any (fun e => (e.1 = i) && (e.2 = i)) then
      (g.node_weight i).map
        (fun ns => ⟨[ns], CycleType.SelfCycle, CycleSeverity.Medium⟩)
    else none
  | _ => none

/-- The cycle the specification promises for one strongly connected
component: size at least 2 gives one cycle with sorted member names,
Simple at exactly 2 members and Complex at 3 or more, severity from the
count of edges with both endpoints inside the component (0-2 Low, 3-5
Medium, 6 or more High); a singleton component gives a Medium SelfCycle
exactly when it carries a self-loop, and nothing otherwise. -/
def claimed_cycle_of_scc (g : NsGraph) (scc : List Nat) : Option CycleDetection :=
  if 2 ≤ scc.length then
    some ⟨sortStrings (scc.filterMap (fun i => g.node_weight i)),
      (if scc.length = 2 then CycleType.Simple else CycleType.Complex),
      (let intra := (g.edges.filter
          (fun e => scc.contains e.1 && scc.contains e.2)).length
       if intra ≤ 2 then CycleSeverity.Low
       else if intra ≤ 5 then CycleSeverity.Medium
       else CycleSeverity.High)⟩
  else claimed_selfcycle g scc

/-! ### Claim theorems -/

/-- C1: `resolve_class_name` follows the four-step priority: a name with a
leading namespace separator is returned with the separator stripped, for
every namespace and import table; otherwise an exact import-table entry
wins regardless of the namespace; otherwise an enclosing namespace is
prepended with the separator; otherwise the name is returned unchanged. -/
theorem resolve_class_name_priority :
    ∀ (name : String) (ns : Option String) (imports : ImportContext),
      (∀ rest : List Char, name = String.mk ('\\' :: rest) →
        resolve_class_name name ns imports = String.mk rest) ∧
      (startsWithBackslash name = false →
        ∀ f, imports.resolve name = some f →
          resolve_class_name name ns imports = f) ∧
      (startsWithBackslash name = false → imports.resolve name = none →
        ∀ n, ns = some n →
          resolve_class_name name ns imports = n ++ "\\" ++ name) ∧
      (startsWithBackslash name = false → imports.resolve name = none →
        ns = none → resolve_class_name name ns imports = name) := by
  intro name ns imports
  refine ⟨?_, ?_, ?_, ?_⟩
  · intro rest hname
    subst hname
    simp [resolve_class_name, startsWithBackslash, dropFirstChar]
  · intro hb f hf
    simp [resolve_class_name, hb, hf]
  · intro hb hf n hns
    subst hns
    simp [resolve_class_name, hb, hf]
  · intro hb hf hns
    subst hns
    simp [resolve_class_name, hb, hf]

theorem resolve_class_name_priority_witness :
    resolve_class_name "\\Acme\\X" (some "N") ⟨[("X", "Other\\X")]⟩ = "Acme\\X" ∧
    resolve_class_name "X" (some "N") ⟨[("X", "Acme\\X")]⟩ = "Acme\\X" ∧
    resolve_class_name "X" (some "N") ⟨[]⟩ = "N\\X" ∧
    resolve_class_name "X" none ⟨[]⟩ = "X" := by
  refine ⟨?_, ?_, ?_, ?_⟩
  · exact (resolve_class_name_priority "\\Acme\\X" (some "N") ⟨[("X", "Other\\X")]⟩).1
      "Acme\\X".data (by decide)
  · exact (resolve_class_name_priority "X" (some "N") ⟨[("X", "Acme\\X")]⟩).2.1
      (by decide) "Acme\\X" (by decide)
  · exact (resolve_class_name_priority "X" (some "N") ⟨[]⟩).2.2.1
      (by decide) (by decide) "N" rfl
  · exact (resolve_class_name_priority "X" none ⟨[]⟩).2.2.2
      (by decide) (by decide) rfl

/-- Splitting a list that does not contain the separator yields the whole
list as the single piece. -/
theorem splitOnChar_of_not_mem (c : Char) :
    ∀ (l : List Char), c ∉ l → splitOnChar c l = [l] := by
  intro l
  induction l with
  | nil => intro _; rfl
  | cons x xs ih =>
    intro h
    have hx : x ≠ c := fun hxc => h (hxc ▸ List.mem_cons_self x xs)
    have hxs : c ∉ xs := fun hc => h (List.mem_cons_of_mem x hc)
    simp [splitOnChar, ih hxs, hx]

/-- C10: an unaliased `use` import binds the last backslash-separated
segment of the fully qualified name (the whole name when it has no
backslash), an aliased import binds the alias, and a later import with
the same short name overwrites the earlier mapping. -/
theorem add_import_binding :
    ∀ (ctx : ImportContext) (fq : String),
      (ImportContext.resolve (ctx.add_import fq none)
        (lastBackslashSegment fq) = some fq) ∧
      (∀ a, ImportContext.resolve (ctx.add_import fq (some a)) a = some fq) ∧
      ('\\' ∉ fq.data → lastBackslashSegment fq = fq) ∧
      (∀ fq2, lastBackslashSegment fq = lastBackslashSegment fq2 →
        ImportContext.resolve ((ctx.add_import fq none).add_import fq2 none)
          (lastBackslashSegment fq) = some fq2) ∧
      (∀ fq2 a, ImportContext.resolve
          ((ctx.add_import fq (some a)).add_import fq2 (some a)) a = some fq2) := by
  intro ctx fq
  refine ⟨?_, ?_, ?_, ?_, ?_⟩
  · simp [ImportContext.add_import, ImportContext.resolve]
  · intro a
    simp [ImportContext.add_import, ImportContext.resolve]
  · intro h
    have := splitOnChar_of_not_mem '\\' fq.data h
    simp [lastBackslashSegment, this]
  · intro fq2 h
    simp [ImportContext.add_import, ImportContext.resolve, h]
  · intro fq2 a
    simp [ImportContext.add_import, ImportContext.resolve]

theorem add_import_binding_witness :
    ImportContext.resolve (ImportContext.new.add_import "Acme\\Util\\X" none) "X"
      = some "Acme\\Util\\X" ∧
    ImportContext.resolve (ImportContext.new.add_import "Acme\\Util\\X" (some "Y")) "Y"
      = some "Acme\\Util\\X" ∧
    lastBackslashSegment "Plain" = "Plain" ∧
    ImportContext.resolve
      ((ImportContext.new.add_import "Acme\\X" none).add_import "Other\\X" none) "X"
      = some "Other\\X" := by
  refine ⟨?_, ?_, ?_, ?_⟩
  · have h := (add_import_binding ImportContext.new "Acme\\Util\\X").1
    have hseg : lastBackslashSegment "Acme\\Util\\X" = "X" := by decide
    rw [hseg] at h
    exact h
  · exact (add_import_binding ImportContext.new "Acme\\Util\\X").2.1 "Y"
  · exact (add_import_binding ImportContext.new "Plain").2.2.1 (by decide)
  · have h := (add_import_binding ImportContext.new "Acme\\X").2.2.2.1 "Other\\X" (by decide)
    have hseg : lastBackslashSegment "Acme\\X" = "X" := by decide
    rw [hseg] at h
    exact h

/-- C4: evaluating the edge container at two inserts that share endpoints
but differ in label: the edge set retains both, because the derived
structural equality (from, to, label, metadata) governs `HashSet`
membership even though the hand-written hash covers only the endpoints.
The claimed at-most-one-edge-per-(from, to) keying therefore fails. -/
theorem add_edge_same_endpoints_two_edges :
    ((DependencyGraph.new.add_edge (Edge.new "a" "b")).add_edge
        ((Edge.new "a" "b").with_label "l")).edges
      = [⟨"a", "b", none, []⟩, ⟨"a", "b", some "l", []⟩] := by decide

/-- C6: visiting an explicit namespace block is independent of the
enclosing scope import table: two runs that differ only in the enclosing
imports produce the same analyzer state, and that state is the one
obtained by visiting the block statements with a fresh empty import table
under the block namespace name. -/
theorem namespace_block_import_isolation :
    ∀ (a : ClassDependencyAnalyzer) (name : Option Identifier)
      (stmts : List Statement) (file_path : String) (ns : Option String)
      (imp1 imp2 : ImportContext),
      (visit_statement a (.nsBlock name stmts) file_path ns imp1).1
        = (visit_statement a (.nsBlock name stmts) file_path ns imp2).1 ∧
      (visit_statement a (.nsBlock name stmts) file_path ns imp1).1
        = (visit_statements a stmts file_path
            (some (extract_namespace_name name)) ImportContext.new).1 := by
  intro a name stmts file_path ns imp1 imp2
  constructor
  · simp [visit_statement]
  · simp [visit_statement]

/-- C9: `analyze` always returns `Ok`: the parse collaborator surfaces a
parse error only as a warning and yields a (possibly partial) tree, so
`analyze` succeeds on every file and visits that tree; unrecognized
statement and member shapes are skipped without effect. -/
theorem analyze_always_ok :
    ∀ (a : ClassDependencyAnalyzer) (file_path : String) (program : Program)
      (err : Option String),
      analyze a file_path program err
        = Except.ok (visit_program a program file_path none) ∧
      (∀ ns imp, visit_statement a Statement.other file_path ns imp = (a, imp)) ∧
      (∀ cls ns imp, visit_class_member a ClassLikeMember.other cls ns imp = a) := by
  intro a file_path program err
  refine ⟨rfl, ?_, ?_⟩
  · intro ns imp
    simp [visit_statement]
  · intro cls ns imp
    simp [visit_class_member]

/-- C2 counterexample: built-in type names do become dependency edges.  A
class extending `string` (a name of the claimed enumerated set, at the
supertype extraction site) produces the edge C -> string, and a property
hinted `integer` (also of the claimed set) produces the edge D -> integer,
because the code filter only covers hint sites and only matches the
lowercased names int/bool rather than integer/boolean. -/
theorem builtin_types_do_become_edges :
    (visit_program ClassDependencyAnalyzer.new
        ⟨[Statement.classDecl ⟨"C", some [Identifier.lcl "string"], none, []⟩]⟩
        "a.php" none).dependencies = [("C", "string")] ∧
    (visit_program ClassDependencyAnalyzer.new
        ⟨[Statement.classDecl ⟨"D", none, none,
            [ClassLikeMember.property (Property.plain
              (some (Hint.identifier (Identifier.lcl "integer"))))]⟩]⟩
        "b.php" none).dependencies = [("D", "integer")] := by
  constructor
  · decide
  · decide

/-- C2 (amended): the built-in filter applies exactly at type-hint
extraction: a hint all of whose identifier leaves fail `is_class_type`
(the lowercased names int, float, string, bool, array, object, callable,
iterable, void, mixed, never, true, false, null, self, parent, static)
contributes no dependency, through any nullable/union/intersection/
parenthesized composition; in particular a property hint naming a
built-in type yields zero edges.  The filter set uses int and bool, not
integer and boolean. -/
theorem builtin_hint_filter :
    ∀ (a : ClassDependencyAnalyzer) (hint : Hint) (current_class : String)
      (ns : Option String) (imports : ImportContext),
      ((∀ n ∈ hintLeafNames hint, is_class_type n = false) →
        extract_hint_dependencies a hint current_class ns imports = a) ∧
      (∀ id : Identifier, is_class_type id.value = false →
        visit_class_member a
          (.property (.plain (some (.identifier id)))) current_class ns imports
          = a) ∧
      (is_class_type "int" = false ∧ is_class_type "bool" = false ∧
        is_class_type "integer" = true ∧ is_class_type "boolean" = true) := by
  have main : ∀ (hint : Hint) (a : ClassDependencyAnalyzer) (current_class : String)
      (ns : Option String) (imports : ImportContext),
      (∀ n ∈ hintLeafNames hint, is_class_type n = false) →
      extract_hint_dependencies a hint current_class ns imports = a := by
    intro hint
    induction hint with
    | identifier id =>
      intro a current_class ns imports h
      have := h id.value (by simp [hintLeafNames])
      simp [extract_hint_dependencies, this]
    | parenthesized p ih =>
      intro a current_class ns imports h
      exact ih a current_class ns imports (by simpa [hintLeafNames] using h)
    | nullable n ih =>
      intro a current_class ns imports h
      exact ih a current_class ns imports (by simpa [hintLeafNames] using h)
    | union l r ihl ihr =>
      intro a current_class ns imports h
      have hl : ∀ n ∈ hintLeafNames l, is_class_type n = false := by
        intro n hn; exact h n (by simp [hintLeafNames, hn])
      have hr : ∀ n ∈ hintLeafNames r, is_class_type n = false := by
        intro n hn; exact h n (by simp [hintLeafNames, hn])
      rw [extract_hint_dependencies, ihl a current_class ns imports hl,
        ihr a current_class ns imports hr]
    | intersection l r ihl ihr =>
      intro a current_class ns imports h
      have hl : ∀ n ∈ hintLeafNames l, is_class_type n = false := by
        intro n hn; exact h n (by simp [hintLeafNames, hn])
      have hr : ∀ n ∈ hintLeafNames r, is_class_type n = false := by
        intro n hn; exact h n (by simp [hintLeafNames, hn])
      rw [extract_hint_dependencies, ihl a current_class ns imports hl,
        ihr a current_class ns imports hr]
    | other =>
      intro a current_class ns imports _
      simp [extract_hint_dependencies]
  intro a hint current_class ns imports
  refine ⟨main hint a current_class ns imports, ?_, by decide⟩
  intro id hid
  rw [visit_class_member]
  exact main (.identifier id) a current_class ns imports
    (by intro n hn; simp [hintLeafNames] at hn; rw [hn]; exact hid)

theorem builtin_hint_filter_witness :
    extract_hint_dependencies ClassDependencyAnalyzer.new
      (Hint.nullable (Hint.union (Hint.identifier (Identifier.lcl "int"))
        (Hint.identifier (Identifier.lcl "Bool"))))
      "App\\C" (some "App") ImportContext.new = ClassDependencyAnalyzer.new ∧
    visit_class_member ClassDependencyAnalyzer.new
      (.property (.plain (some (.identifier (Identifier.lcl "float")))))
      "App\\C" (some "App") ImportContext.new = ClassDependencyAnalyzer.new := by
  constructor
  · exact (builtin_hint_filter ClassDependencyAnalyzer.new
      (Hint.nullable (Hint.union (Hint.identifier (Identifier.lcl "int"))
        (Hint.identifier (Identifier.lcl "Bool"))))
      "App\\C" (some "App") ImportContext.new).1 (by decide)
  · exact (builtin_hint_filter ClassDependencyAnalyzer.new
      (Hint.identifier (Identifier.lcl "float"))
      "App\\C" (some "App") ImportContext.new).2.1 (Identifier.lcl "float") (by decide)

/-! ### Lemmas about keyUpsert and the graph container -/

theorem any_rest_of_any_cons {β : Type} {p : String × β} {rest : List (String × β)}
    {k : String} (hany : (p :: rest).any (fun q => q.1 = k) = true)
    (hp : ¬ p.1 = k) : rest.any (fun q => q.1 = k) = true := by
  rw [List.any_cons] at hany
  rcases (Bool.or_eq_true _ _).mp hany with h1 | h2
  · exact absurd (by simpa using h1) hp
  · exact h2

theorem find?_map_upsert {β : Type} (l : List (String × β)) (k : String) (v : β)
    (hany : l.any (fun p => p.1 = k) = true) :
    (l.map (fun p => if p.1 = k then (k, v) else p)).find? (fun p => p.1 = k)
      = some (k, v) := by
  induction l with
  | nil => simp at hany
  | cons p rest ih =>
    simp only [List.map_cons]
    by_cases hp : p.1 = k
    · rw [if_pos hp]
      exact List.find?_cons_of_pos _ (by simp)
    · rw [if_neg hp, List.find?_cons_of_neg _ (by simpa using hp)]
      exact ih (any_rest_of_any_cons hany hp)

theorem find?_map_upsert_ne {β : Type} (l : List (String × β)) (k : String) (v : β)
    (k' : String) (h : ¬ k' = k) :
    (l.map (fun p => if p.1 = k then (k, v) else p)).find? (fun p => p.1 = k')
      = l.find? (fun p => p.1 = k') := by
  induction l with
  | nil => rfl
  | cons p rest ih =>
    simp only [List.map_cons]
    by_cases hp : p.1 = k
    · rw [if_pos hp]
      have h1 : ¬ ((k, v).1 = k') := fun hc => h hc.symm
      have h2 : ¬ (p.1 = k') := by rw [hp]; exact fun hc => h hc.symm
      rw [List.find?_cons_of_neg _ (by simpa using h1),
        List.find?_cons_of_neg _ (by simpa using h2), ih]
    · rw [if_neg hp]
      by_cases hpk' : p.1 = k'
      · rw [List.find?_cons_of_pos _ (by simpa using hpk'),
          List.find?_cons_of_pos _ (by simpa using hpk')]
      · rw [List.find?_cons_of_neg _ (by simpa using hpk'),
          List.find?_cons_of_neg _ (by simpa using hpk'), ih]

theorem find?_keyUpsert_self {β : Type} (l : List (String × β)) (k : String) (v : β) :
    (keyUpsert l k v).find? (fun p => p.1 = k) = some (k, v) := by
  rw [keyUpsert]
  by_cases hany : l.any (fun p => p.1 = k) = true
  · rw [if_pos hany]
    exact find?_map_upsert l k v hany
  · rw [if_neg hany, List.find?_append]
    have hnone : l.find? (fun p => p.1 = k) = none := by
      rw [List.find?_eq_none]
      intro x hx hpx
      exact hany (List.any_eq_true.mpr ⟨x, hx, hpx⟩)
    simp [hnone, List.find?]

theorem find?_keyUpsert_ne {β : Type} (l : List (String × β)) (k : String) (v : β)
    (k' : String) (h : ¬ k' = k) :
    (keyUpsert l k v).find? (fun p => p.1 = k') = l.find? (fun p => p.1 = k') := by
  rw [keyUpsert]
  by_cases hany : l.any (fun p => p.1 = k) = true
  · rw [if_pos hany]
    exact find?_map_upsert_ne l k v k' h
  · rw [if_neg hany, List.find?_append]
    have hsing : ([(k, v)].find? (fun p => p.1 = k')) = none := by
      rw [List.find?_eq_none]
      intro x hx hpx
      rw [List.mem_singleton] at hx
      subst hx
      have hkk : k = k' := by simpa using hpx
      exact h hkk.symm
    rw [hsing]
    cases l.find? (fun p => p.1 = k') <;> rfl

theorem any_eq_isSome_find? {β : Type} (l : List (String × β)) (k : String) :
    l.any (fun p => p.1 = k) = (l.find? (fun p => p.1 = k)).isSome := by
  induction l with
  | nil => rfl
  | cons p rest ih =>
    by_cases hp : p.1 = k
    · rw [List.find?_cons_of_pos _ (by simpa using hp)]
      simp [List.any_cons, hp]
    · rw [List.find?_cons_of_neg _ (by simpa using hp)]
      simp [List.any_cons, hp, ih]

theorem edges_add_node (g : DependencyGraph) (n : Node) :
    (g.add_node n).edges = g.edges := rfl

theorem edges_add_edge (g : DependencyGraph) (e : Edge) :
    (g.add_edge e).edges = if e ∈ g.edges then g.edges else g.edges ++ [e] := by
  rw [DependencyGraph.add_edge]
  split_ifs <;> simp_all [edges_add_node]

theorem getNode_add_node_self (g : DependencyGraph) (n : Node) :
    (g.add_node n).getNode n.id = some n := by
  simp [DependencyGraph.add_node, DependencyGraph.getNode, find?_keyUpsert_self]

theorem getNode_add_node_ne (g : DependencyGraph) (n : Node) (k : String)
    (h : ¬ k = n.id) : (g.add_node n).getNode k = g.getNode k := by
  simp [DependencyGraph.add_node, DependencyGraph.getNode,
    find?_keyUpsert_ne _ _ _ _ h]

theorem containsNode_add_node_self (g : DependencyGraph) (n : Node) :
    (g.add_node n).containsNode n.id = true := by
  have h := find?_keyUpsert_self g.nodes n.id n
  rw [DependencyGraph.add_node, DependencyGraph.containsNode]
  rw [any_eq_isSome_find?]
  simp [h]

theorem containsNode_add_node_ne (g : DependencyGraph) (n : Node) (k : String)
    (h : ¬ k = n.id) : (g.add_node n).containsNode k = g.containsNode k := by
  rw [DependencyGraph.add_node, DependencyGraph.containsNode,
    DependencyGraph.containsNode, any_eq_isSome_find?, any_eq_isSome_find?]
  simp [find?_keyUpsert_ne _ _ _ _ h]

theorem containsNode_add_node_mono (g : DependencyGraph) (n : Node) (k : String)
    (h : g.containsNode k = true) : (g.add_node n).containsNode k = true := by
  by_cases hk : k = n.id
  · subst hk; exact containsNode_add_node_self g n
  · rw [containsNode_add_node_ne g n k hk]; exact h

theorem containsNode_add_edge_mono (g : DependencyGraph) (e : Edge) (k : String)
    (h : g.containsNode k = true) : (g.add_edge e).containsNode k = true := by
  rw [DependencyGraph.add_edge]
  split_ifs <;>
    first
      | exact h
      | exact containsNode_add_node_mono _ _ _ h
      | exact containsNode_add_node_mono _ _ _ (containsNode_add_node_mono _ _ _ h)

theorem containsNode_edges_irrelevant (g : DependencyGraph) (es : List Edge)
    (k : String) :
    ({ g with edges := es } : DependencyGraph).containsNode k = g.containsNode k := rfl

theorem containsNode_add_edge_frm (g : DependencyGraph) (e : Edge) :
    (g.add_edge e).containsNode e.frm = true := by
  rw [DependencyGraph.add_edge]
  split_ifs with h1 h2 h2 <;>
    first
      | assumption
      | exact containsNode_add_node_mono _ _ _ h1
      | exact containsNode_add_node_self g (Node.new e.frm e.frm)
      | exact containsNode_add_node_mono _ _ _
          (containsNode_add_node_self g (Node.new e.frm e.frm))

theorem containsNode_add_edge_tgt (g : DependencyGraph) (e : Edge) :
    (g.add_edge e).containsNode e.tgt = true := by
  rw [DependencyGraph.add_edge]
  split_ifs with h1 h2 h2 <;>
    first
      | assumption
      | exact containsNode_add_node_self _ (Node.new e.tgt e.tgt)

theorem getNode_edges_irrelevant (g : DependencyGraph) (es : List Edge)
    (k : String) :
    ({ g with edges := es } : DependencyGraph).getNode k = g.getNode k := rfl

theorem getNode_add_edge_frm (g : DependencyGraph) (e : Edge)
    (h : g.containsNode e.frm = false) :
    (g.add_edge e).getNode e.frm = some (Node.new e.frm e.frm) := by
  rw [DependencyGraph.add_edge]
  have h1 : ¬ (g.containsNode e.frm = true) := by simp [h]
  rw [if_neg h1]
  have hself : (g.add_node (Node.new e.frm e.frm)).getNode e.frm
      = some (Node.new e.frm e.frm) :=
    getNode_add_node_self g (Node.new e.frm e.frm)
  by_cases h2 : (g.add_node (Node.new e.frm e.frm)).containsNode e.tgt = true
  · rw [if_pos h2]
    by_cases h3 : e ∈ (g.add_node (Node.new e.frm e.frm)).edges
    · rw [if_pos h3]; exact hself
    · rw [if_neg h3, getNode_edges_irrelevant]; exact hself
  · rw [if_neg h2]
    have hne : ¬ e.frm = e.tgt := by
      intro hc
      rw [← hc] at h2
      exact h2 (containsNode_add_node_self g (Node.new e.frm e.frm))
    by_cases h3 :
        e ∈ ((g.add_node (Node.new e.frm e.frm)).add_node (Node.new e.tgt e.tgt)).edges
    · rw [if_pos h3, getNode_add_node_ne _ _ _ hne]; exact hself
    · rw [if_neg h3, getNode_edges_irrelevant, getNode_add_node_ne _ _ _ hne]
      exact hself

theorem getNode_add_edge_tgt (g : DependencyGraph) (e : Edge)
    (h : g.containsNode e.tgt = false) :
    (g.add_edge e).getNode e.tgt = some (Node.new e.tgt e.tgt) := by
  rw [DependencyGraph.add_edge]
  by_cases h1 : g.containsNode e.frm = true
  · rw [if_pos h1]
    have h2 : ¬ (g.containsNode e.tgt = true) := by simp [h]
    rw [if_neg h2]
    have hself : (g.add_node (Node.new e.tgt e.tgt)).getNode e.tgt
        = some (Node.new e.tgt e.tgt) :=
      getNode_add_node_self g (Node.new e.tgt e.tgt)
    by_cases h3 : e ∈ (g.add_node (Node.new e.tgt e.tgt)).edges
    · rw [if_pos h3]; exact hself
    · rw [if_neg h3, getNode_edges_irrelevant]; exact hself
  · rw [if_neg h1]
    by_cases h2 : (g.add_node (Node.new e.frm e.frm)).containsNode e.tgt = true
    · rw [if_pos h2]
      have hfrm : e.tgt = e.frm := by
        by_contra hc
        rw [containsNode_add_node_ne g (Node.new e.frm e.frm) e.tgt hc, h] at h2
        exact absurd h2 (by simp)
      have hself : (g.add_node (Node.new e.frm e.frm)).getNode e.tgt
          = some (Node.new e.tgt e.tgt) := by
        rw [hfrm]
        exact getNode_add_node_self g (Node.new e.frm e.frm)
      by_cases h3 : e ∈ (g.add_node (Node.new e.frm e.frm)).edges
      · rw [if_pos h3]; exact hself
      · rw [if_neg h3, getNode_edges_irrelevant]; exact hself
    · rw [if_neg h2]
      have hself :
          ((g.add_node (Node.new e.frm e.frm)).add_node (Node.new e.tgt e.tgt)).getNode
            e.tgt = some (Node.new e.tgt e.tgt) :=
        getNode_add_node_self _ (Node.new e.tgt e.tgt)
      by_cases h3 :
          e ∈ ((g.add_node (Node.new e.frm e.frm)).add_node (Node.new e.tgt e.tgt)).edges
      · rw [if_pos h3]; exact hself
      · rw [if_neg h3, getNode_edges_irrelevant]; exact hself

theorem graphWf_add_node (g : DependencyGraph) (n : Node) (h : GraphWf g) :
    GraphWf (g.add_node n) := by
  refine ⟨?_, ?_⟩
  · intro e he
    rw [edges_add_node] at he
    exact ⟨containsNode_add_node_mono _ _ _ (h.1 e he).1,
      containsNode_add_node_mono _ _ _ (h.1 e he).2⟩
  · rw [edges_add_node]; exact h.2

theorem mem_edges_add_edge (g : DependencyGraph) (e e' : Edge)
    (h : e' ∈ (g.add_edge e).edges) : e' ∈ g.edges ∨ e' = e := by
  rw [edges_add_edge] at h
  by_cases hm : e ∈ g.edges
  · rw [if_pos hm] at h; exact Or.inl h
  · rw [if_neg hm] at h
    rcases List.mem_append.mp h with h1 | h2
    · exact Or.inl h1
    · exact Or.inr (List.mem_singleton.mp h2)

theorem self_mem_edges_add_edge (g : DependencyGraph) (e : Edge) :
    e ∈ (g.add_edge e).edges := by
  rw [edges_add_edge]
  by_cases hm : e ∈ g.edges
  · rw [if_pos hm]; exact hm
  · rw [if_neg hm]; exact List.mem_append.mpr (Or.inr (List.mem_singleton.mpr rfl))

theorem graphWf_add_edge (g : DependencyGraph) (e : Edge) (h : GraphWf g) :
    GraphWf (g.add_edge e) := by
  refine ⟨?_, ?_⟩
  · intro e' he'
    rcases mem_edges_add_edge g e e' he' with h1 | h1
    · exact ⟨containsNode_add_edge_mono _ _ _ (h.1 e' h1).1,
        containsNode_add_edge_mono _ _ _ (h.1 e' h1).2⟩
    · rw [h1]
      exact ⟨containsNode_add_edge_frm g e, containsNode_add_edge_tgt g e⟩
  · rw [edges_add_edge]
    by_cases hm : e ∈ g.edges
    · rw [if_pos hm]; exact h.2
    · rw [if_neg hm]
      rw [List.nodup_append]
      exact ⟨h.2, List.nodup_singleton e, by
        intro x hx hxe
        rw [List.mem_singleton] at hxe
        exact hm (hxe ▸ hx)⟩

theorem graphWf_applyOps : ∀ (ops : List GraphOp) (g : DependencyGraph),
    GraphWf g → GraphWf (applyOps ops g) := by
  intro ops
  induction ops with
  | nil => intro g h; exact h
  | cons op rest ih =>
    intro g h
    have hstep : GraphWf (applyOp g op) := by
      cases op with
      | addNode n => exact graphWf_add_node g n h
      | addEdge e => exact graphWf_add_edge g e h
    exact ih (applyOp g op) hstep

theorem graphWf_new : GraphWf DependencyGraph.new :=
  ⟨fun e he => absurd he (List.not_mem_nil e), List.nodup_nil⟩

/-- C5: from the empty graph, any sequence of add_node/add_edge calls
keeps every edge endpoint present as a node; add_edge auto-creates a
missing endpoint as a node with id = label = the endpoint string; adding
the identical edge a second time changes nothing, and the edge occurs
exactly once in the edge set. -/
theorem graph_operation_invariants :
    ∀ (ops : List GraphOp),
      (∀ e ∈ (applyOps ops DependencyGraph.new).edges,
        (applyOps ops DependencyGraph.new).containsNode e.frm = true ∧
        (applyOps ops DependencyGraph.new).containsNode e.tgt = true) ∧
      (∀ (g : DependencyGraph) (e : Edge), g.containsNode e.frm = false →
        (g.add_edge e).getNode e.frm = some (Node.new e.frm e.frm)) ∧
      (∀ (g : DependencyGraph) (e : Edge), g.containsNode e.tgt = false →
        (g.add_edge e).getNode e.tgt = some (Node.new e.tgt e.tgt)) ∧
      (∀ (g : DependencyGraph) (e : Edge),
        (g.add_edge e).add_edge e = g.add_edge e) ∧
      (∀ (e : Edge),
        ((applyOps ops DependencyGraph.new).add_edge e).edges.count e = 1) := by
  intro ops
  have hwf : GraphWf (applyOps ops DependencyGraph.new) :=
    graphWf_applyOps ops DependencyGraph.new graphWf_new
  refine ⟨fun e he => (hwf.1 e he), getNode_add_edge_frm, getNode_add_edge_tgt,
    ?_, ?_⟩
  · intro g e
    have h1 : (g.add_edge e).containsNode e.frm = true := containsNode_add_edge_frm g e
    have h2 : (g.add_edge e).containsNode e.tgt = true := containsNode_add_edge_tgt g e
    have h3 : e ∈ (g.add_edge e).edges := self_mem_edges_add_edge g e
    rw [DependencyGraph.add_edge, if_pos h1, if_pos h2, if_pos h3]
  · intro e
    have hwf2 : GraphWf ((applyOps ops DependencyGraph.new).add_edge e) :=
      graphWf_add_edge _ e hwf
    exact List.count_eq_one_of_mem hwf2.2
      (self_mem_edges_add_edge (applyOps ops DependencyGraph.new) e)

theorem graph_operation_invariants_witness :
    DependencyGraph.new.containsNode "a" = false ∧
    (DependencyGraph.new.add_edge (Edge.new "a" "b")).getNode "a"
      = some (Node.new "a" "a") ∧
    (DependencyGraph.new.add_edge (Edge.new "a" "b")).getNode "b"
      = some (Node.new "b" "b") ∧
    ((DependencyGraph.new.add_edge (Edge.new "a" "b")).add_edge
        (Edge.new "a" "b")).edges.count (Edge.new "a" "b") = 1 := by
  refine ⟨by decide, ?_, ?_, ?_⟩
  · exact (graph_operation_invariants []).2.1 DependencyGraph.new
      (Edge.new "a" "b") (by decide)
  · exact (graph_operation_invariants []).2.2.1 DependencyGraph.new
      (Edge.new "a" "b") (by decide)
  · have h := (graph_operation_invariants
      [GraphOp.addEdge (Edge.new "a" "b")]).2.2.2.2 (Edge.new "a" "b")
    exact h

/-! ### Lemmas towards build_graph -/

theorem containsNode_eq_isSome_getNode (g : DependencyGraph) (k : String) :
    g.containsNode k = (g.getNode k).isSome := by
  rw [DependencyGraph.containsNode, DependencyGraph.getNode, any_eq_isSome_find?]
  cases g.nodes.find? (fun p => p.1 = k) <;> rfl

theorem getNode_add_edge_preserve (g : DependencyGraph) (e : Edge) (k : String)
    (v : Node) (h : g.getNode k = some v) : (g.add_edge e).getNode k = some v := by
  have hc : g.containsNode k = true := by
    rw [containsNode_eq_isSome_getNode, h]; rfl
  rw [DependencyGraph.add_edge]
  by_cases h1 : g.containsNode e.frm = true
  · rw [if_pos h1]
    by_cases h2 : g.containsNode e.tgt = true
    · rw [if_pos h2]
      by_cases h3 : e ∈ g.edges
      · rw [if_pos h3]; exact h
      · rw [if_neg h3, getNode_edges_irrelevant]; exact h
    · rw [if_neg h2]
      have hne : ¬ k = e.tgt := fun hc2 => h2 (hc2 ▸ hc)
      have hg : (g.add_node (Node.new e.tgt e.tgt)).getNode k = some v := by
        rw [getNode_add_node_ne _ _ _ hne]; exact h
      by_cases h3 : e ∈ (g.add_node (Node.new e.tgt e.tgt)).edges
      · rw [if_pos h3]; exact hg
      · rw [if_neg h3, getNode_edges_irrelevant]; exact hg
  · rw [if_neg h1]
    have hnef : ¬ k = e.frm := fun hc2 => h1 (hc2 ▸ hc)
    have hg1 : (g.add_node (Node.new e.frm e.frm)).getNode k = some v := by
      rw [getNode_add_node_ne _ _ _ hnef]; exact h
    have hc1 : (g.add_node (Node.new e.frm e.frm)).containsNode k = true :=
      containsNode_add_node_mono _ _ _ hc
    by_cases h2 : (g.add_node (Node.new e.frm e.frm)).containsNode e.tgt = true
    · rw [if_pos h2]
      by_cases h3 : e ∈ (g.add_node (Node.new e.frm e.frm)).edges
      · rw [if_pos h3]; exact hg1
      · rw [if_neg h3, getNode_edges_irrelevant]; exact hg1
    · rw [if_neg h2]
      have hnet : ¬ k = e.tgt := fun hc2 => h2 (hc2 ▸ hc1)
      have hg2 : ((g.add_node (Node.new e.frm e.frm)).add_node
          (Node.new e.tgt e.tgt)).getNode k = some v := by
        rw [getNode_add_node_ne _ _ _ hnet]; exact hg1
      by_cases h3 : e ∈ ((g.add_node (Node.new e.frm e.frm)).add_node
          (Node.new e.tgt e.tgt)).edges
      · rw [if_pos h3]; exact hg2
      · rw [if_neg h3, getNode_edges_irrelevant]; exact hg2

theorem mem_edges_add_edge_mono (g : DependencyGraph) (e e' : Edge)
    (h : e' ∈ g.edges) : e' ∈ (g.add_edge e).edges := by
  rw [edges_add_edge]
  by_cases hm : e ∈ g.edges
  · rw [if_pos hm]; exact h
  · rw [if_neg hm]; exact List.mem_append.mpr (Or.inl h)

theorem nodes_add_edge_of_contains (g : DependencyGraph) (e : Edge)
    (h1 : g.containsNode e.frm = true) (h2 : g.containsNode e.tgt = true) :
    (g.add_edge e).nodes = g.nodes := by
  rw [DependencyGraph.add_edge, if_pos h1, if_pos h2]
  by_cases h3 : e ∈ g.edges
  · rw [if_pos h3]
  · rw [if_neg h3]

theorem fold_classNodeStep_getNode_of_absent (l : List (String × String))
    (k : String) (h : l.any (fun c => c.1 = k) = false) :
    ∀ g : DependencyGraph, (l.foldl classNodeStep g).getNode k = g.getNode k := by
  induction l with
  | nil => intro g; rfl
  | cons q rest ih =>
    intro g
    have hq : ¬ q.1 = k := by
      intro hc
      rw [List.any_cons] at h
      simp [hc] at h
    have hrest : rest.any (fun c => c.1 = k) = false := by
      rw [List.any_cons] at h
      exact (Bool.or_eq_false_iff.mp h).2
    rw [List.foldl_cons, ih hrest, classNodeStep,
      getNode_add_node_ne _ _ _ (fun hc => hq (hc.symm))]

theorem fold_classNodeStep_contains_mono (l : List (String × String))
    (k : String) : ∀ g : DependencyGraph, g.containsNode k = true →
    (l.foldl classNodeStep g).containsNode k = true := by
  induction l with
  | nil => intro g h; exact h
  | cons q rest ih =>
    intro g h
    rw [List.foldl_cons]
    exact ih _ (containsNode_add_node_mono _ _ _ h)

theorem fold_classNodeStep_contains_mem (l : List (String × String)) :
    ∀ g : DependencyGraph, ∀ p ∈ l,
    (l.foldl classNodeStep g).containsNode p.1 = true := by
  induction l with
  | nil => intro g p hp; exact absurd hp (List.not_mem_nil p)
  | cons q rest ih =>
    intro g p hp
    rcases List.mem_cons.mp hp with h1 | h2
    · subst h1
      rw [List.foldl_cons]
      apply fold_classNodeStep_contains_mono
      exact containsNode_add_node_self g (internalNodeOf p)
    · rw [List.foldl_cons]
      exact ih _ p h2

theorem fold_classNodeStep_getNode_mem (l : List (String × String))
    (hnd : (l.map Prod.fst).Nodup) :
    ∀ g : DependencyGraph, ∀ p ∈ l,
    (l.foldl classNodeStep g).getNode p.1 = some (internalNodeOf p) := by
  induction l with
  | nil => intro g p hp; exact absurd hp (List.not_mem_nil p)
  | cons q rest ih =>
    intro g p hp
    rw [List.map_cons, List.nodup_cons] at hnd
    rcases List.mem_cons.mp hp with h1 | h2
    · subst h1
      rw [List.foldl_cons]
      have habs : rest.any (fun c => c.1 = p.1) = false := by
        rw [List.any_eq_false]
        intro x hx
        simp only [decide_eq_true_eq]
        intro hc
        exact hnd.1 (hc ▸ List.mem_map_of_mem Prod.fst hx)
      rw [fold_classNodeStep_getNode_of_absent rest p.1 habs, classNodeStep]
      exact getNode_add_node_self g (internalNodeOf p)
    · rw [List.foldl_cons]
      exact ih hnd.2 _ p h2

theorem depEdgeStep_preserves_declared_getNode (a : ClassDependencyAnalyzer)
    (ext : Bool) (g : DependencyGraph) (p : String × String) (k : String)
    (v : Node) (hk : a.classes.any (fun c => c.1 = k) = true)
    (h : g.getNode k = some v) : (depEdgeStep a ext g p).getNode k = some v := by
  rw [depEdgeStep]
  by_cases hkept : (ext || !(!(a.classes.any (fun c => c.1 = p.2)))) = true
  · rw [if_pos hkept]
    by_cases hext : ((!(a.classes.any (fun c => c.1 = p.2))) && ext) = true
    · rw [if_pos hext]
      have hundecl : a.classes.any (fun c => c.1 = p.2) = false := by
        rcases Bool.and_eq_true_iff.mp hext with ⟨h1, _⟩
        simpa using h1
      have hne : ¬ k = p.2 := by
        intro hc
        rw [hc, hundecl] at hk
        exact absurd hk (by simp)
      apply getNode_add_edge_preserve
      rw [getNode_add_node_ne _ _ _ hne]
      exact h
    · rw [if_neg hext]
      exact getNode_add_edge_preserve g _ k v h
  · rw [if_neg hkept]
    exact h

theorem depEdgeStep_preserves_ext_node (a : ClassDependencyAnalyzer)
    (ext : Bool) (g : DependencyGraph) (p : String × String) (k : String)
    (h : g.getNode k = some (externalNodeOf k)) :
    (depEdgeStep a ext g p).getNode k = some (externalNodeOf k) := by
  rw [depEdgeStep]
  by_cases hkept : (ext || !(!(a.classes.any (fun c => c.1 = p.2)))) = true
  · rw [if_pos hkept]
    by_cases hext : ((!(a.classes.any (fun c => c.1 = p.2))) && ext) = true
    · rw [if_pos hext]
      apply getNode_add_edge_preserve
      by_cases hpk : p.2 = k
      · rw [← hpk] at h ⊢
        exact getNode_add_node_self g (externalNodeOf p.2)
      · rw [getNode_add_node_ne _ _ _ (fun hc => hpk hc.symm)]
        exact h
    · rw [if_neg hext]
      exact getNode_add_edge_preserve g _ k _ h
  · rw [if_neg hkept]
    exact h

theorem depEdgeStep_edge_mono (a : ClassDependencyAnalyzer) (ext : Bool)
    (g : DependencyGraph) (p : String × String) (e : Edge) (h : e ∈ g.edges) :
    e ∈ (depEdgeStep a ext g p).edges := by
  rw [depEdgeStep]
  by_cases hkept : (ext || !(!(a.classes.any (fun c => c.1 = p.2)))) = true
  · rw [if_pos hkept]
    by_cases hext : ((!(a.classes.any (fun c => c.1 = p.2))) && ext) = true
    · rw [if_pos hext]
      exact mem_edges_add_edge_mono _ _ _ (by rw [edges_add_node]; exact h)
    · rw [if_neg hext]
      exact mem_edges_add_edge_mono _ _ _ h
  · rw [if_neg hkept]
    exact h

theorem fold_depEdgeStep_preserves_declared_getNode (a : ClassDependencyAnalyzer)
    (ext : Bool) (l : List (String × String)) (k : String) (v : Node)
    (hk : a.classes.any (fun c => c.1 = k) = true) :
    ∀ g : DependencyGraph, g.getNode k = some v →
    (l.foldl (depEdgeStep a ext) g).getNode k = some v := by
  induction l with
  | nil => intro g h; exact h
  | cons p rest ih =>
    intro g h
    rw [List.foldl_cons]
    exact ih _ (depEdgeStep_preserves_declared_getNode a ext g p k v hk h)

theorem fold_depEdgeStep_preserves_ext_node (a : ClassDependencyAnalyzer)
    (ext : Bool) (l : List (String × String)) (k : String) :
    ∀ g : DependencyGraph, g.getNode k = some (externalNodeOf k) →
    (l.foldl (depEdgeStep a ext) g).getNode k = some (externalNodeOf k) := by
  induction l with
  | nil => intro g h; exact h
  | cons p rest ih =>
    intro g h
    rw [List.foldl_cons]
    exact ih _ (depEdgeStep_preserves_ext_node a ext g p k h)

theorem fold_depEdgeStep_edge_mono (a : ClassDependencyAnalyzer) (ext : Bool)
    (l : List (String × String)) (e : Edge) :
    ∀ g : DependencyGraph, e ∈ g.edges →
    e ∈ (l.foldl (depEdgeStep a ext) g).edges := by
  induction l with
  | nil => intro g h; exact h
  | cons p rest ih =>
    intro g h
    rw [List.foldl_cons]
    exact ih _ (depEdgeStep_edge_mono a ext g p e h)

theorem fold_depEdgeStep_ext_establish (a : ClassDependencyAnalyzer)
    (l : List (String × String)) :
    ∀ (g : DependencyGraph) (fr tg : String), (fr, tg) ∈ l →
    a.classes.any (fun c => c.1 = tg) = false →
    (l.foldl (depEdgeStep a true) g).getNode tg = some (externalNodeOf tg) ∧
    Edge.new fr tg ∈ (l.foldl (depEdgeStep a true) g).edges := by
  induction l with
  | nil => intro g fr tg hmem _; exact absurd hmem (List.not_mem_nil _)
  | cons p rest ih =>
    intro g fr tg hmem hundecl
    rcases List.mem_cons.mp hmem with h1 | h2
    · rw [List.foldl_cons, ← h1]
      have hstep : depEdgeStep a true g (fr, tg)
          = (g.add_node (externalNodeOf tg)).add_edge (Edge.new fr tg) := by
        rw [depEdgeStep]
        simp [hundecl]
      rw [hstep]
      constructor
      · apply fold_depEdgeStep_preserves_ext_node
        apply getNode_add_edge_preserve
        exact getNode_add_node_self g (externalNodeOf tg)
      · apply fold_depEdgeStep_edge_mono
        exact self_mem_edges_add_edge _ _
    · rw [List.foldl_cons]
      exact ih _ fr tg h2 hundecl

theorem containsNode_nodes_eq (g g' : DependencyGraph) (k : String)
    (h : g'.nodes = g.nodes) : g'.containsNode k = g.containsNode k := by
  rw [DependencyGraph.containsNode, DependencyGraph.containsNode, h]

theorem getNode_nodes_eq (g g' : DependencyGraph) (k : String)
    (h : g'.nodes = g.nodes) : g'.getNode k = g.getNode k := by
  rw [DependencyGraph.getNode, DependencyGraph.getNode, h]

theorem fold_depEdgeStep_noext (a : ClassDependencyAnalyzer)
    (l : List (String × String)) :
    ∀ (g : DependencyGraph),
    (∀ q ∈ l, a.classes.any (fun c => c.1 = q.1) = true) →
    (∀ k, a.classes.any (fun c => c.1 = k) = true → g.containsNode k = true) →
    (∀ k, a.classes.any (fun c => c.1 = k) = false → g.getNode k = none) →
    (∀ e ∈ g.edges, a.classes.any (fun c => c.1 = e.tgt) = true) →
    (∀ k, a.classes.any (fun c => c.1 = k) = false →
      (l.foldl (depEdgeStep a false) g).getNode k = none) ∧
    (∀ e ∈ (l.foldl (depEdgeStep a false) g).edges,
      a.classes.any (fun c => c.1 = e.tgt) = true) := by
  induction l with
  | nil => intro g _ _ hg2 hg3; exact ⟨hg2, hg3⟩
  | cons p rest ih =>
    intro g hsrc hg1 hg2 hg3
    rw [List.foldl_cons]
    by_cases hd : a.classes.any (fun c => c.1 = p.2) = true
    · have hstep : depEdgeStep a false g p = g.add_edge (Edge.new p.1 p.2) := by
        rw [depEdgeStep]
        simp [hd]
      have hfrm : g.containsNode p.1 = true :=
        hg1 p.1 (hsrc p (List.mem_cons_self p rest))
      have htgt : g.containsNode p.2 = true := hg1 p.2 hd
      have hnodes : (g.add_edge (Edge.new p.1 p.2)).nodes = g.nodes :=
        nodes_add_edge_of_contains g _ hfrm htgt
      rw [hstep]
      apply ih
      · intro q hq; exact hsrc q (List.mem_cons_of_mem p hq)
      · intro k hk
        rw [containsNode_nodes_eq g (g.add_edge (Edge.new p.1 p.2)) k hnodes]
        exact hg1 k hk
      · intro k hk
        rw [getNode_nodes_eq g (g.add_edge (Edge.new p.1 p.2)) k hnodes]
        exact hg2 k hk
      · intro e he
        rw [edges_add_edge] at he
        by_cases hm : Edge.new p.1 p.2 ∈ g.edges
        · rw [if_pos hm] at he; exact hg3 e he
        · rw [if_neg hm] at he
          rcases List.mem_append.mp he with ha | hb
          · exact hg3 e ha
          · rw [List.mem_singleton.mp hb]
            exact hd
    · have hstep : depEdgeStep a false g p = g := by
        rw [depEdgeStep]
        have : a.classes.any (fun c => c.1 = p.2) = false :=
          Bool.not_eq_true _ ▸ Bool.eq_false_iff.mpr hd
        simp [this]
      rw [hstep]
      apply ih
      · intro q hq; exact hsrc q (List.mem_cons_of_mem p hq)
      · exact hg1
      · exact hg2
      · exact hg3

/-- C8: `build_graph` makes every declared entity a node tagged internal
(carrying its file); with external inclusion every undeclared edge target
becomes a node tagged external and the edge is added; without external
inclusion an edge with an undeclared target is dropped and no node for
that target exists (given the reachable-state facts that declared class
names are unique and dependency sources are declared). -/
theorem build_graph_tagging :
    ∀ (a : ClassDependencyAnalyzer) (ext : Bool),
      ((a.classes.map Prod.fst).Nodup →
        ∀ p ∈ a.classes, (build_graph a ext).getNode p.1
          = some (((Node.new p.1 p.1).with_metadata "file" p.2).with_metadata
              "type" "internal")) ∧
      (∀ fr tg, (fr, tg) ∈ a.dependencies →
        a.classes.any (fun c => c.1 = tg) = false →
        (build_graph a true).getNode tg
            = some ((Node.new tg tg).with_metadata "type" "external") ∧
        Edge.new fr tg ∈ (build_graph a true).edges) ∧
      ((∀ q ∈ a.dependencies, a.classes.any (fun c => c.1 = q.1) = true) →
        ∀ tg, a.classes.any (fun c => c.1 = tg) = false →
          (∀ e ∈ (build_graph a false).edges, ¬ (e.tgt = tg)) ∧
          (build_graph a false).getNode tg = none) := by
  intro a ext
  refine ⟨?_, ?_, ?_⟩
  · intro hnd p hp
    have hk : a.classes.any (fun c => c.1 = p.1) = true :=
      List.any_eq_true.mpr ⟨p, hp, by simp⟩
    exact fold_depEdgeStep_preserves_declared_getNode a ext a.dependencies p.1
      (internalNodeOf p) hk _
      (fold_classNodeStep_getNode_mem a.classes hnd DependencyGraph.new p hp)
  · intro fr tg hmem hundecl
    exact fold_depEdgeStep_ext_establish a a.dependencies _ fr tg hmem hundecl
  · intro hsrc tg hundecl
    have hg1 : ∀ k, a.classes.any (fun c => c.1 = k) = true →
        (a.classes.foldl classNodeStep DependencyGraph.new).containsNode k = true := by
      intro k hk
      rcases List.any_eq_true.mp hk with ⟨p, hp, hpk⟩
      have : p.1 = k := by simpa using hpk
      rw [← this]
      exact fold_classNodeStep_contains_mem a.classes DependencyGraph.new p hp
    have hg2 : ∀ k, a.classes.any (fun c => c.1 = k) = false →
        (a.classes.foldl classNodeStep DependencyGraph.new).getNode k = none := by
      intro k hk
      rw [fold_classNodeStep_getNode_of_absent a.classes k hk]
      rfl
    have hg3 : ∀ e ∈ (a.classes.foldl classNodeStep DependencyGraph.new).edges,
        a.classes.any (fun c => c.1 = e.tgt) = true := by
      intro e he
      have hne : (a.classes.foldl classNodeStep DependencyGraph.new).edges = [] := by
        have base : ∀ (l : List (String × String)) (g : DependencyGraph),
            (l.foldl classNodeStep g).edges = g.edges := by
          intro l
          induction l with
          | nil => intro g; rfl
          | cons q rest ih =>
            intro g
            rw [List.foldl_cons, ih, classNodeStep, edges_add_node]
        rw [base a.classes DependencyGraph.new]
        rfl
      rw [hne] at he
      exact absurd he (List.not_mem_nil e)
    have h := fold_depEdgeStep_noext a a.dependencies _ hsrc hg1 hg2 hg3
    constructor
    · intro e he hetgt
      have := h.2 e he
      rw [hetgt, hundecl] at this
      exact absurd this (by simp)
    · exact h.1 tg hundecl

theorem build_graph_tagging_witness :
    (build_graph ⟨[("A", "f.php")], [("A", "B")]⟩ true).getNode "A"
      = some (((Node.new "A" "A").with_metadata "file" "f.php").with_metadata
          "type" "internal") ∧
    (build_graph ⟨[("A", "f.php")], [("A", "B")]⟩ true).getNode "B"
      = some ((Node.new "B" "B").with_metadata "type" "external") ∧
    Edge.new "A" "B" ∈ (build_graph ⟨[("A", "f.php")], [("A", "B")]⟩ true).edges ∧
    (∀ e ∈ (build_graph ⟨[("A", "f.php")], [("A", "B")]⟩ false).edges,
      ¬ (e.tgt = "B")) ∧
    (build_graph ⟨[("A", "f.php")], [("A", "B")]⟩ false).getNode "B" = none := by
  refine ⟨?_, ?_, ?_, ?_, ?_⟩
  · exact (build_graph_tagging ⟨[("A", "f.php")], [("A", "B")]⟩ true).1
      (by decide) ("A", "f.php") (by decide)
  · exact ((build_graph_tagging ⟨[("A", "f.php")], [("A", "B")]⟩ true).2.1
      "A" "B" (by decide) (by decide)).1
  · exact ((build_graph_tagging ⟨[("A", "f.php")], [("A", "B")]⟩ true).2.1
      "A" "B" (by decide) (by decide)).2
  · exact ((build_graph_tagging ⟨[("A", "f.php")], [("A", "B")]⟩ false).2.2
      (by decide) "B" (by decide)).1
  · exact ((build_graph_tagging ⟨[("A", "f.php")], [("A", "B")]⟩ false).2.2
      (by decide) "B" (by decide)).2

theorem mem_insertByScore (s : ModuleSuggestion) :
    ∀ (l : List ModuleSuggestion) (x : ModuleSuggestion),
    x ∈ insertByScore s l → x = s ∨ x ∈ l := by
  intro l
  induction l with
  | nil =>
    intro x hx
    rw [insertByScore] at hx
    exact Or.inl (List.mem_singleton.mp hx)
  | cons y ys ih =>
    intro x hx
    rw [insertByScore] at hx
    by_cases hc : y.cohesion_score < s.cohesion_score
    · rw [if_pos hc] at hx
      rcases List.mem_cons.mp hx with h1 | h2
      · exact Or.inl h1
      · exact Or.inr h2
    · rw [if_neg hc] at hx
      rcases List.mem_cons.mp hx with h1 | h2
      · exact Or.inr (h1 ▸ List.mem_cons_self y ys)
      · rcases ih x h2 with h3 | h4
        · exact Or.inl h3
        · exact Or.inr (List.mem_cons_of_mem y h4)

theorem mem_sortByScoreDesc_aux :
    ∀ (l acc : List ModuleSuggestion) (x : ModuleSuggestion),
    x ∈ l.foldl (fun acc s => insertByScore s acc) acc → x ∈ acc ∨ x ∈ l := by
  intro l
  induction l with
  | nil => intro acc x hx; exact Or.inl hx
  | cons s rest ih =>
    intro acc x hx
    rw [List.foldl_cons] at hx
    rcases ih (insertByScore s acc) x hx with h1 | h2
    · rcases mem_insertByScore s acc x h1 with h3 | h4
      · exact Or.inr (h3 ▸ List.mem_cons_self s rest)
      · exact Or.inl h4
    · exact Or.inr (List.mem_cons_of_mem s h2)

/-- C7: every module suggestion carries the internal/external dependency
counts computed for its namespace group, and its cohesion score is
internal / (internal + external), with exactly 1 when the group has zero
edges. -/
theorem suggest_modules_cohesion :
    ∀ (r : ModuleRecommender) (s : ModuleSuggestion), s ∈ suggest_modules r →
      (s.internal_dependencies, s.external_dependencies)
        = calculate_module_dependencies r s.namespaces ∧
      s.cohesion_score
        = (if 0 < s.internal_dependencies + s.external_dependencies
            then (s.internal_dependencies : ℚ)
              / ((s.internal_dependencies : ℚ) + (s.external_dependencies : ℚ))
            else 1) ∧
      (s.internal_dependencies + s.external_dependencies = 0 →
        s.cohesion_score = 1) := by
  intro r s hs
  rw [suggest_modules] at hs
  have hs2 := mem_sortByScoreDesc_aux _ [] s hs
  rcases hs2 with h1 | h2
  · exact absurd h1 (List.not_mem_nil s)
  · rcases List.mem_map.mp h2 with ⟨p, _, hps⟩
    subst hps
    rw [buildSuggestion]
    refine ⟨by rfl, by rfl, ?_⟩
    intro hzero
    simp only at hzero ⊢
    rw [if_neg]
    omega

theorem suggest_modules_cohesion_witness :
    (⟨"App", ["App\\M"], 2, 0, 0, 1⟩ : ModuleSuggestion)
        ∈ suggest_modules ⟨⟨["App\\M"], []⟩, [("App\\M", ⟨2, 0, 0, []⟩)]⟩ ∧
    ((⟨"App", ["App\\M"], 2, 0, 0, 1⟩ : ModuleSuggestion).internal_dependencies,
      (⟨"App", ["App\\M"], 2, 0, 0, 1⟩ : ModuleSuggestion).external_dependencies)
      = calculate_module_dependencies ⟨⟨["App\\M"], []⟩, [("App\\M", ⟨2, 0, 0, []⟩)]⟩
          ["App\\M"] ∧
    (⟨"App", ["App\\M"], 2, 0, 0, 1⟩ : ModuleSuggestion).cohesion_score = 1 := by
  have hmem : (⟨"App", ["App\\M"], 2, 0, 0, 1⟩ : ModuleSuggestion)
      ∈ suggest_modules ⟨⟨["App\\M"], []⟩, [("App\\M", ⟨2, 0, 0, []⟩)]⟩ := by decide
  have h := suggest_modules_cohesion ⟨⟨["App\\M"], []⟩, [("App\\M", ⟨2, 0, 0, []⟩)]⟩
    ⟨"App", ["App\\M"], 2, 0, 0, 1⟩ hmem
  exact ⟨hmem, h.1, h.2.2 (by decide)⟩

theorem length_insertSortedStr (s : String) :
    ∀ l : List String, (insertSortedStr s l).length = l.length + 1 := by
  intro l
  induction l with
  | nil => rfl
  | cons x xs ih =>
    rw [insertSortedStr]
    by_cases hc : charListLe s.data x.data = true
    · rw [if_pos hc]; rfl
    · rw [if_neg hc, List.length_cons, ih, List.length_cons]

theorem length_sortStrings_aux :
    ∀ (l acc : List String),
    (l.foldl (fun acc s => insertSortedStr s acc) acc).length
      = acc.length + l.length := by
  intro l
  induction l with
  | nil => intro acc; rfl
  | cons x xs ih =>
    intro acc
    rw [List.foldl_cons, ih, length_insertSortedStr, List.length_cons]
    omega

theorem length_sortStrings (l : List String) :
    (sortStrings l).length = l.length := by
  rw [sortStrings, length_sortStrings_aux]
  simp

theorem length_filterMap_node_weight (g : NsGraph) :
    ∀ scc : List Nat, (∀ i ∈ scc, i < g.nodes.length) →
    (scc.filterMap (fun i => g.node_weight i)).length = scc.length := by
  intro scc
  induction scc with
  | nil => intro _; rfl
  | cons i rest ih =>
    intro hval
    have hi : i < g.nodes.length := hval i (List.mem_cons_self i rest)
    have hsome : g.node_weight i = some (g.nodes.get ⟨i, hi⟩) := by
      rw [NsGraph.node_weight]
      exact List.get?_eq_get hi
    rw [List.filterMap_cons, hsome, List.length_cons,
      ih (fun j hj => hval j (List.mem_cons_of_mem i hj))]
    simp

theorem neighbors_any_self (g : NsGraph) (i : Nat) :
    ((g.neighbors i).any (fun n => n = i))
      = (g.edges.any (fun e => (e.1 = i) && (e.2 = i))) := by
  rw [Bool.eq_iff_iff, List.any_eq_true, List.any_eq_true]
  constructor
  · rintro ⟨n, hn, hni⟩
    rw [NsGraph.neighbors] at hn
    rcases List.mem_map.mp hn with ⟨e, he, hsnd⟩
    rcases List.mem_filter.mp he with ⟨he2, hfst⟩
    refine ⟨e, he2, ?_⟩
    have h1 : e.1 = i := by simpa using hfst
    have h2 : e.2 = i := by rw [hsnd]; simpa using hni
    simp [h1, h2]
  · rintro ⟨e, he, hcond⟩
    have h1 : e.1 = i ∧ e.2 = i := by simpa using hcond
    refine ⟨e.2, ?_, by simpa using h1.2⟩
    rw [NsGraph.neighbors]
    exact List.mem_map_of_mem Prod.snd
      (List.mem_filter.mpr ⟨he, by simpa using h1.1⟩)

theorem neighbors_filter_length (E : List (Nat × Nat)) (n : Nat) (c : Nat → Bool) :
    (((E.filter (fun e => e.1 = n)).map Prod.snd).filter c).length
      = (E.filter (fun e => (e.1 = n) && c e.2)).length := by
  induction E with
  | nil => rfl
  | cons e rest ih =>
    by_cases h1 : e.1 = n
    · by_cases h2 : c e.2 = true <;> simp [List.filter_cons, h1, h2, ih]
    · simp [List.filter_cons, h1, ih]

theorem sum_ind_not_mem (x : Nat) :
    ∀ l : List Nat, x ∉ l →
    (l.map (fun n => if x = n then (1 : Nat) else 0)).sum = 0 := by
  intro l
  induction l with
  | nil => intro _; rfl
  | cons n rest ih =>
    intro h
    have hx : ¬ x = n := fun hc => h (hc ▸ List.mem_cons_self n rest)
    rw [List.map_cons, List.sum_cons, if_neg hx,
      ih (fun hc => h (List.mem_cons_of_mem n hc))]

theorem sum_ind_mem (x : Nat) :
    ∀ l : List Nat, l.Nodup →
    (l.map (fun n => if x = n then (1 : Nat) else 0)).sum
      = if l.contains x then 1 else 0 := by
  intro l
  induction l with
  | nil => intro _; rfl
  | cons n rest ih =>
    intro hnd
    rw [List.nodup_cons] at hnd
    by_cases hx : x = n
    · subst hx
      rw [List.map_cons, List.sum_cons, if_pos rfl, sum_ind_not_mem x rest hnd.1]
      simp [List.contains_cons]
    · rw [List.map_cons, List.sum_cons, if_neg hx, ih hnd.2]
      have : (n :: rest).contains x = rest.contains x := by
        simp [List.contains_cons]
        intro hc
        exact absurd hc hx
      rw [this]
      omega

theorem sum_map_congr_nat {α : Type} (l : List α) (f g : α → Nat)
    (h : ∀ a ∈ l, f a = g a) : (l.map f).sum = (l.map g).sum := by
  induction l with
  | nil => rfl
  | cons x xs ih =>
    rw [List.map_cons, List.map_cons, List.sum_cons, List.sum_cons,
      h x (List.mem_cons_self x xs),
      ih (fun a ha => h a (List.mem_cons_of_mem x ha))]

theorem sum_map_add_nat {α : Type} (l : List α) (f g : α → Nat) :
    (l.map (fun a => f a + g a)).sum = (l.map f).sum + (l.map g).sum := by
  induction l with
  | nil => rfl
  | cons x xs ih =>
    rw [List.map_cons, List.map_cons, List.map_cons, List.sum_cons,
      List.sum_cons, List.sum_cons, ih]
    omega

theorem sum_scc_filter (scc : List Nat) (hnd : scc.Nodup) :
    ∀ E : List (Nat × Nat),
    (scc.map (fun n =>
        (E.filter (fun e => (e.1 = n) && scc.contains e.2)).length)).sum
      = (E.filter (fun e => scc.contains e.1 && scc.contains e.2)).length := by
  intro E
  induction E with
  | nil => simp
  | cons e rest ih =>
    have hterm : ∀ n ∈ scc,
        (List.filter (fun q => (q.1 = n) && scc.contains q.2) (e :: rest)).length
          = (if (decide (e.1 = n) && scc.contains e.2) = true then 1 else 0)
            + (rest.filter (fun q => (q.1 = n) && scc.contains q.2)).length := by
      intro n _
      rw [List.filter_cons]
      by_cases h : (decide (e.1 = n) && scc.contains e.2) = true
      · rw [if_pos h, if_pos h, List.length_cons]
        omega
      · rw [if_neg h, if_neg h]
        omega
    rw [sum_map_congr_nat scc _ _ hterm, sum_map_add_nat, ih]
    have hind : (scc.map (fun n =>
        if (decide (e.1 = n) && scc.contains e.2) = true then 1 else 0)).sum
          = if (scc.contains e.1 && scc.contains e.2) = true then 1 else 0 := by
      by_cases hc2 : scc.contains e.2 = true
      · have heq : ∀ n ∈ scc,
            (if (decide (e.1 = n) && scc.contains e.2) = true then (1 : Nat) else 0)
              = if e.1 = n then 1 else 0 := by
          intro n _
          rw [hc2, Bool.and_true]
          by_cases hn : e.1 = n <;> simp [hn]
        rw [sum_map_congr_nat scc _ _ heq, sum_ind_mem e.1 scc hnd, hc2,
          Bool.and_true]
      · have hc2f : scc.contains e.2 = false := Bool.eq_false_iff.mpr hc2
        have heq : ∀ n ∈ scc,
            (if (decide (e.1 = n) && scc.contains e.2) = true then (1 : Nat) else 0)
              = 0 := by
          intro n _
          rw [hc2f, Bool.and_false]
          simp
        rw [sum_map_congr_nat scc _ _ heq, hc2f, Bool.and_false]
        simp
    rw [hind, List.filter_cons]
    by_cases h : (scc.contains e.1 && scc.contains e.2) = true
    · rw [if_pos h, if_pos h, List.length_cons]
      omega
    · rw [if_neg h, if_neg h]
      omega

theorem count_edges_in_cycle_eq (g : NsGraph) (scc : List Nat)
    (hnd : scc.Nodup) :
    count_edges_in_cycle g scc
      = (g.edges.filter (fun e => scc.contains e.1 && scc.contains e.2)).length := by
  rw [count_edges_in_cycle]
  have hterm : ∀ n ∈ scc,
      ((g.neighbors n).filter (fun j => scc.contains j)).length
        = (g.edges.filter (fun e => (e.1 = n) && scc.contains e.2)).length := by
    intro n _
    rw [NsGraph.neighbors]
    exact neighbors_filter_length g.edges n (fun j => scc.contains j)
  rw [sum_map_congr_nat scc _ _ hterm, sum_scc_filter scc hnd g.edges]

theorem detectCyclesGo_eq (g : NsGraph) :
    ∀ l : List (List Nat),
    (∀ scc ∈ l, scc.Nodup ∧ ∀ i ∈ scc, i < g.nodes.length) →
    detectCyclesGo g l = l.filterMap (claimed_cycle_of_scc g) := by
  intro l
  induction l with
  | nil => intro _; rfl
  | cons scc rest ih =>
    intro h
    have hrest := fun s hs => h s (List.mem_cons_of_mem scc hs)
    have hscc := h scc (List.mem_cons_self scc rest)
    rw [detectCyclesGo, List.filterMap_cons, ih hrest]
    by_cases h2 : 1 < scc.length
    · have hcode : (if 1 < scc.length then
          [(⟨sortStrings (scc.filterMap (fun i => g.node_weight i)),
            (if (sortStrings (scc.filterMap (fun i => g.node_weight i))).length = 2
              then CycleType.Simple else CycleType.Complex),
            (if count_edges_in_cycle g scc ≤ 2 then CycleSeverity.Low
             else if count_edges_in_cycle g scc ≤ 5 then CycleSeverity.Medium
             else CycleSeverity.High)⟩ : CycleDetection)]
          else if scc.length = 1 then
            match scc.head? with
            | some idx =>
              if (g.neighbors idx).any (fun n => n = idx) then
                match g.node_weight idx with
                | some ns => [⟨[ns], CycleType.SelfCycle, CycleSeverity.Medium⟩]
                | none => []
              else []
            | none => []
          else []) = [(⟨sortStrings (scc.filterMap (fun i => g.node_weight i)),
            (if (sortStrings (scc.filterMap (fun i => g.node_weight i))).length = 2
              then CycleType.Simple else CycleType.Complex),
            (if count_edges_in_cycle g scc ≤ 2 then CycleSeverity.Low
             else if count_edges_in_cycle g scc ≤ 5 then CycleSeverity.Medium
             else CycleSeverity.High)⟩ : CycleDetection)] := if_pos h2
      rw [hcode]
      have hcl : claimed_cycle_of_scc g scc
          = some ⟨sortStrings (scc.filterMap (fun i => g.node_weight i)),
            (if scc.length = 2 then CycleType.Simple else CycleType.Complex),
            (if (g.edges.filter
                  (fun e => scc.contains e.1 && scc.contains e.2)).length ≤ 2
              then CycleSeverity.Low
             else if (g.edges.filter
                  (fun e => scc.contains e.1 && scc.contains e.2)).length ≤ 5
              then CycleSeverity.Medium
             else CycleSeverity.High)⟩ := by
        have hlen2 : 2 ≤ scc.length := h2
        rw [claimed_cycle_of_scc, if_pos hlen2]
      rw [hcl]
      have hty : (if (sortStrings (scc.filterMap (fun i => g.node_weight i))).length = 2
            then CycleType.Simple else CycleType.Complex)
          = (if scc.length = 2 then CycleType.Simple else CycleType.Complex) := by
        rw [length_sortStrings, length_filterMap_node_weight g scc hscc.2]
      have hsev : (if count_edges_in_cycle g scc ≤ 2 then CycleSeverity.Low
             else if count_edges_in_cycle g scc ≤ 5 then CycleSeverity.Medium
             else CycleSeverity.High)
          = (if (g.edges.filter
                  (fun e => scc.contains e.1 && scc.contains e.2)).length ≤ 2
              then CycleSeverity.Low
             else if (g.edges.filter
                  (fun e => scc.contains e.1 && scc.contains e.2)).length ≤ 5
              then CycleSeverity.Medium
             else CycleSeverity.High) := by
        rw [count_edges_in_cycle_eq g scc hscc.1]
      rw [hty, hsev]
      rfl
    · match scc, h2 with
      | [], _ => rfl
      | [i], _ =>
        have hb := neighbors_any_self g i
        by_cases hl : (g.edges.any (fun e => (e.1 = i) && (e.2 = i))) = true
        · have hn : ((g.neighbors i).any (fun n => n = i)) = true := by
            rw [hb]; exact hl
          rw [claimed_cycle_of_scc, claimed_selfcycle]
          cases hw : g.node_weight i with
          | some ns => simp [hn, hl, hw]
          | none => simp [hn, hl, hw]
        · have hlf : (g.edges.any (fun e => (e.1 = i) && (e.2 = i))) = false :=
            Bool.eq_false_iff.mpr hl
          have hn : ((g.neighbors i).any (fun n => n = i)) = false := by
            rw [hb]; exact hlf
          rw [claimed_cycle_of_scc, claimed_selfcycle]
          simp [hn, hlf]
      | i :: j :: tl, h2 => exact absurd (by simp) h2

theorem tarjan_scc_valid (g : NsGraph) :
    ∀ scc ∈ tarjan_scc g, scc.Nodup ∧ ∀ i ∈ scc, i < g.nodes.length := by
  intro scc hscc
  rw [tarjan_scc] at hscc
  rcases List.mem_filterMap.mp hscc with ⟨i, _, hsome⟩
  by_cases hh : (sccOf g i).head? = some i
  · rw [if_pos hh] at hsome
    have heq : sccOf g i = scc := Option.some.inj hsome
    rw [← heq, sccOf]
    exact ⟨(List.nodup_range g.nodes.length).filter _,
      fun j hj => List.mem_range.mp (List.mem_of_mem_filter hj)⟩
  · rw [if_neg hh] at hsome
    exact absurd hsome (Option.noConfusion)

/-- C3: `detect_cycles` reports, for each strongly connected component of
the namespace graph, exactly what the specification promises: one cycle
with lexicographically sorted members for each component of size at least
2 (Simple at 2 members, Complex at 3 or more, severity Low/Medium/High at
0-2, 3-5, 6 or more intra-component edges), one Medium SelfCycle for each
singleton component with a self-loop, and nothing for a singleton without
one; on the 2-node mutual-reference graph it yields exactly one Simple
Low cycle with members A, B, on a self-loop graph one Medium SelfCycle,
and on a 3-ring one Complex cycle of Medium severity (3 edges). -/
theorem detect_cycles_characterization :
    ∀ g : NsGraph,
      detect_cycles g = (tarjan_scc g).filterMap (claimed_cycle_of_scc g) ∧
      detect_cycles ⟨["A", "B"], [(0, 1), (1, 0)]⟩
        = [⟨["A", "B"], CycleType.Simple, CycleSeverity.Low⟩] ∧
      detect_cycles ⟨["A"], [(0, 0)]⟩
        = [⟨["A"], CycleType.SelfCycle, CycleSeverity.Medium⟩] ∧
      detect_cycles ⟨["A"], []⟩ = [] ∧
      detect_cycles ⟨["A", "B", "C"], [(0, 1), (1, 2), (2, 0)]⟩
        = [⟨["A", "B", "C"], CycleType.Complex, CycleSeverity.Medium⟩] := by
  intro g
  refine ⟨?_, by decide, by decide, by decide, by decide⟩
  rw [detect_cycles]
  exact detectCyclesGo_eq g (tarjan_scc g) (tarjan_scc_valid g)
